import Mathlib

set_option maxRecDepth 16384

/-!
Shallow embedding of the tridb storage engine (github.com/ejuju/tridb).

Bytes are modelled as Fin 256 (Go byte), byte strings as List (Fin 256).
The on-disk log is a List Byte; OS file handles are collapsed into the
byte list plus the logical write offset, and I/O failures are supplied
as explicit event inputs.

Embedded components, each translated from the corresponding Go source:
  - Row and the binary framing codec        (encoding.go)
  - the trie keydir                         (keydir.go, trie variant)
  - the keymap trie with per-key history    (keymap variant used by rw.go)
  - the transaction engine and compaction   (_keydir.go engine variant)
-/

abbrev Byte := Fin 256

abbrev ByteStr := List Byte

/-- Operation characters, from encoding.go: OpSet = '+', OpDelete = '-'. -/
def OpSet : Byte := ⟨43, by decide⟩

def OpDelete : Byte := ⟨45, by decide⟩

/-- Row holds data about a single database operation (encoding.go). -/
structure Row where
  op : Byte
  key : ByteStr
  value : ByteStr
deriving Repr, DecidableEq

/-- Key/value length constraints (encoding.go): MaxKeyLength = MaxUint8,
MaxValueLength = MaxUint32. -/
def MaxKeyLength : Nat := 255

def MaxValueLength : Nat := 4294967295

/-- Row.Validate: errors when the key or value is too long; true = valid. -/
def Row.validate (row : Row) : Bool :=
  decide (row.key.length ≤ MaxKeyLength) && decide (row.value.length ≤ MaxValueLength)

def byteOf (x : Nat) : Byte := ⟨x % 256, Nat.mod_lt _ (by omega)⟩

/-- binary.BigEndian.AppendUint32: 4 big-endian bytes of a 32-bit value. -/
def u32be (n : Nat) : ByteStr :=
  [byteOf (n / 16777216), byteOf (n / 65536), byteOf (n / 256), byteOf n]

/-- binary.BigEndian.Uint32 on 4 bytes. -/
def be32 (a b c d : Byte) : Nat :=
  a.val * 16777216 + b.val * 65536 + c.val * 256 + d.val

/-- Row.Encode (encoding.go): validate, then header
(op, key-length byte, 4-byte big-endian value length), key, value.
none models the validation error return. -/
def Row.encode (row : Row) : Option ByteStr :=
  if row.validate then
    some ([row.op, byteOf row.key.length] ++ u32be row.value.length ++ row.key ++ row.value)
  else
    none

/-- Row.DecodeFrom (encoding.go): read a 6-byte header, then the key and
value; report the consumed byte count. io.ReadFull short reads are decode
errors, modelled as none. The caller Row is mutated only on success, which
the functional reading gives for free. -/
def Row.decodeFrom (bs : ByteStr) : Option (Row × Nat) :=
  match bs with
  | op :: lenK :: a :: b :: c :: d :: rest =>
    let keyLen := lenK.val
    let valLen := be32 a b c d
    if keyLen ≤ rest.length then
      let key := rest.take keyLen
      let rest2 := rest.drop keyLen
      if valLen ≤ rest2.length then
        some (⟨op, key, rest2.take valLen⟩, 6 + keyLen + valLen)
      else none
    else none
  | _ => none

/-- Length of a successful encoding: 6-byte header plus key plus value. -/
def encLen (row : Row) : Nat := 6 + row.key.length + row.value.length

theorem encode_eq_some (row : Row) (hk : row.key.length ≤ MaxKeyLength)
    (hv : row.value.length ≤ MaxValueLength) :
    row.encode = some ([row.op, byteOf row.key.length] ++ u32be row.value.length
      ++ row.key ++ row.value) := by
  unfold Row.encode Row.validate
  simp [hk, hv]

theorem encode_length (row : Row) (e : ByteStr) (h : row.encode = some e) :
    e.length = encLen row := by
  unfold Row.encode at h
  by_cases hv : row.validate
  · simp [hv] at h
    subst h
    simp [u32be, encLen]
    omega
  · simp [hv] at h

theorem be32_u32be (n : Nat) (h : n ≤ MaxValueLength) :
    ∀ a b c d, u32be n = [a, b, c, d] → be32 a b c d = n := by
  intro a b c d heq
  unfold u32be at heq
  obtain ⟨ha, hb, hc, hd⟩ : a = byteOf (n / 16777216) ∧ b = byteOf (n / 65536)
      ∧ c = byteOf (n / 256) ∧ d = byteOf n := by
    injection heq with h1 h2; injection h2 with h2 h3; injection h3 with h3 h4
    injection h4 with h4 _
    exact ⟨h1.symm, h2.symm, h3.symm, h4.symm⟩
  subst ha hb hc hd
  unfold be32 byteOf MaxValueLength at *
  simp only
  omega

/-- Decoding an encoding followed by arbitrary extra bytes returns the row
and consumes exactly the encoding's length. -/
theorem decode_encode_append (row : Row) (e rest : ByteStr)
    (h : row.encode = some e) :
    Row.decodeFrom (e ++ rest) = some (row, e.length) := by
  have hlen := encode_length row e h
  unfold Row.encode at h
  by_cases hv : row.validate
  · have hb : (decide (row.key.length ≤ MaxKeyLength)
        && decide (row.value.length ≤ MaxValueLength)) = true := hv
    rw [Bool.and_eq_true, decide_eq_true_eq, decide_eq_true_eq] at hb
    obtain ⟨hk, hvlen⟩ := hb
    rw [if_pos hv] at h
    simp only [Option.some.injEq] at h
    subst h
    unfold Row.decodeFrom
    simp only [u32be, List.cons_append, List.nil_append]
    have hk255 : row.key.length ≤ 255 := hk
    have hkb : (byteOf row.key.length).val = row.key.length := by
      unfold byteOf
      simp only
      omega
    have hbe : be32 (byteOf (row.value.length / 16777216))
        (byteOf (row.value.length / 65536)) (byteOf (row.value.length / 256))
        (byteOf row.value.length) = row.value.length :=
      be32_u32be row.value.length hvlen _ _ _ _ rfl
    rw [hkb, hbe]
    have h1 : row.key.length ≤ (row.key ++ row.value ++ rest).length := by
      simp [List.length_append]
    rw [if_pos h1]
    have htk : (row.key ++ row.value ++ rest).take row.key.length = row.key := by
      rw [List.append_assoc, List.take_append_of_le_length (by omega), List.take_length]
    have htd : (row.key ++ row.value ++ rest).drop row.key.length = row.value ++ rest := by
      rw [List.append_assoc, List.drop_append_of_le_length (by omega), List.drop_length]
      simp
    rw [htk, htd]
    have h2 : row.value.length ≤ (row.value ++ rest).length := by
      simp [List.length_append]
    rw [if_pos h2]
    have htv : (row.value ++ rest).take row.value.length = row.value := by
      rw [List.take_append_of_le_length (by omega), List.take_length]
    rw [htv]
    simp only [Option.some.injEq, Prod.mk.injEq, List.length_cons, List.length_append]
    exact ⟨trivial, by omega⟩
  · simp [hv] at h

theorem decode_encode (row : Row) (e : ByteStr) (h : row.encode = some e) :
    Row.decodeFrom e = some (row, e.length) := by
  have := decode_encode_append row e [] h
  simpa using this

/-- C8: For every row (op in Set or Delete, key of length at most 255,
value of length at most 2^32-1, value empty for Delete): decoding the
encoding of the row yields the row back, and the byte count reported by
decode equals the length of the encoded byte string. -/
theorem c8_codec_roundtrip (row : Row)
    (hop : row.op = OpSet ∨ row.op = OpDelete)
    (hk : row.key.length ≤ MaxKeyLength)
    (hv : row.value.length ≤ MaxValueLength)
    (hd : row.op = OpDelete → row.value = []) :
    ∃ e, row.encode = some e ∧ Row.decodeFrom e = some (row, e.length) := by
  refine ⟨_, encode_eq_some row hk hv, ?_⟩
  exact decode_encode row _ (encode_eq_some row hk hv)

theorem c8_codec_roundtrip_witness :
    ((⟨OpSet, [byteOf 107], [byteOf 118]⟩ : Row).op = OpSet
        ∨ (⟨OpSet, [byteOf 107], [byteOf 118]⟩ : Row).op = OpDelete)
      ∧ (∃ e, (⟨OpSet, [byteOf 107], [byteOf 118]⟩ : Row).encode = some e
        ∧ Row.decodeFrom e = some (⟨OpSet, [byteOf 107], [byteOf 118]⟩, e.length)) :=
  ⟨Or.inl rfl,
    c8_codec_roundtrip ⟨OpSet, [byteOf 107], [byteOf 118]⟩ (Or.inl rfl)
      (by decide) (by decide) (by decide)⟩

/-!
## Trie keydir (keydir.go, trie variant)

keydirNode has a 256-entry child array and an optional position; the keydir
holds a root node and a count. Children are modelled as a length-256 list of
optional nodes (the Go array [256]*keydirNode, nil = none).
-/

/-- RowPosition (keydir.go): Offset, Size. -/
structure RowPosition where
  offset : Nat
  size : Nat
deriving Repr, DecidableEq

inductive KeydirNode where
  | mk (children : List (Option KeydirNode)) (position : Option RowPosition)

def KeydirNode.children : KeydirNode → List (Option KeydirNode)
  | .mk c _ => c

def KeydirNode.position : KeydirNode → Option RowPosition
  | .mk _ p => p

/-- A fresh node: 256 nil children, no position (Go zero value). -/
def emptyNode : KeydirNode := .mk (List.replicate 256 none) none

structure Keydir where
  count : Int
  root : KeydirNode

def emptyKeydir : Keydir := ⟨0, emptyNode⟩

/-- keydir.set inner loop: descend the key, materialising missing children;
at the end set the position. The returned Bool reports whether the final
node's position was nil (count is incremented in that case). -/
def KeydirNode.setKey : KeydirNode → List Byte → RowPosition → KeydirNode × Bool
  | .mk children position, [], pos => (.mk children (some pos), position.isNone)
  | .mk children position, c :: rest, pos =>
    let child := (children.getD c.val none).getD emptyNode
    let r := child.setKey rest pos
    (.mk (children.set c.val (some r.1)) position, r.2)

/-- keydir.set (keydir.go): count increments when the terminal position was
nil, then the position is overwritten. -/
def Keydir.set (kd : Keydir) (key : List Byte) (pos : RowPosition) : Keydir :=
  let r := kd.root.setKey key pos
  ⟨if r.2 then kd.count + 1 else kd.count, r.1⟩

/-- keydir.delete inner loop: none when a child on the path is missing (the
Go early return, a no-op); otherwise the node with the terminal position
cleared. Note the source clears the position and decrements the count even
when the terminal position was already nil. -/
def KeydirNode.deleteKey : KeydirNode → List Byte → Option KeydirNode
  | .mk children _, [] => some (.mk children none)
  | .mk children position, c :: rest =>
    match children.getD c.val none with
    | none => none
    | some child =>
      match child.deleteKey rest with
      | none => none
      | some child2 => some (.mk (children.set c.val (some child2)) position)

/-- keydir.delete (keydir.go): no-op if a child on the path is missing;
otherwise decrement count (unconditionally) and clear the position. -/
def Keydir.delete (kd : Keydir) (key : List Byte) : Keydir :=
  match kd.root.deleteKey key with
  | none => kd
  | some root2 => ⟨kd.count - 1, root2⟩

/-- keydir.get (keydir.go): descend the key; nil when a child is missing. -/
def KeydirNode.getKey : KeydirNode → List Byte → Option RowPosition
  | n, [] => n.position
  | .mk children _, c :: rest =>
    match children.getD c.val none with
    | none => none
    | some child => child.getKey rest

def Keydir.get (kd : Keydir) (key : List Byte) : Option RowPosition :=
  kd.root.getKey key

structure WalkOptions where
  pfx : List Byte
  reverse : Bool

/-- The child indices visited by keydirNode.walk (keydir.go). The Go loop is
for c := start; c != end; c = next(c) with start, end = 0, 255 forward and
255, 0 in reverse, so the index equal to end is never visited: forward walks
cover 0..254 and reverse walks cover 255..1. -/
def keydirLoopIdxs (reverse : Bool) : List Nat :=
  if reverse then (List.range' 1 255).reverse else List.range 255

mutual

/-- keydirNode.walk (keydir.go): visit this node's position first, then the
children at the loop indices; the visit sequence is returned as a list. -/
def KeydirNode.walkNode (n : KeydirNode) (reverse : Bool) (pfx : List Byte) :
    List (List Byte × RowPosition) :=
  match n with
  | .mk children position =>
    (match position with
     | some p => [(pfx, p)]
     | none => []) ++
    walkChildren children (keydirLoopIdxs reverse) reverse pfx
termination_by (sizeOf n, 0)

def walkChildren (children : List (Option KeydirNode)) (idxs : List Nat)
    (reverse : Bool) (pfx : List Byte) : List (List Byte × RowPosition) :=
  match idxs with
  | [] => []
  | c :: rest =>
    (match h : children.getD c none with
     | none => []
     | some child => child.walkNode reverse (pfx ++ [byteOf c])) ++
    walkChildren children rest reverse pfx
termination_by (sizeOf children, idxs.length)
decreasing_by
  · simp only [Prod.lex_def]
    left
    have hm : some child ∈ children := by
      have : children.getD c none = (children.get? c).getD none := by
        rw [List.getD_eq_getElem?_getD, List.get?_eq_getElem?]
      rw [this] at h
      rcases hg : children.get? c with _ | x
      · rw [hg] at this h; simp at h
      · rw [hg] at h
        simp at h
        subst h
        exact List.get?_mem hg
    have h1 := List.sizeOf_lt_of_mem hm
    have h2 : sizeOf child < sizeOf (some child) := by
      simp
    omega
  · simp [Prod.lex_def]

end

/-- keydir.walk (keydir.go): default options, descend to the prefix node
(no visits when the prefix path is missing), then walk that subtree. -/
def KeydirNode.descend : KeydirNode → List Byte → Option KeydirNode
  | n, [] => some n
  | .mk children _, c :: rest =>
    match children.getD c.val none with
    | none => none
    | some child => child.descend rest

def Keydir.walk (kd : Keydir) (opts : Option WalkOptions) :
    List (List Byte × RowPosition) :=
  let o := opts.getD ⟨[], false⟩
  match kd.root.descend o.pfx with
  | none => []
  | some n => n.walkNode o.reverse o.pfx

/-! ### List helper lemmas for child arrays and walk evaluations -/

theorem getD_set_ne {α : Type} (l : List α) (i j : Nat) (a d : α) (h : i ≠ j) :
    (l.set i a).getD j d = l.getD j d := by
  rw [List.getD_eq_getElem?_getD, List.getD_eq_getElem?_getD, List.getElem?_set_ne h]

theorem getD_set_self {α : Type} (l : List α) (i : Nat) (a d : α) (h : i < l.length) :
    (l.set i a).getD i d = a := by
  rw [List.getD_eq_getElem?_getD, List.getElem?_set_self h]
  rfl

theorem getD_replicate {α : Type} (n c : Nat) (d : α) :
    (List.replicate n d).getD c d = d := by
  rw [List.getD_eq_getElem?_getD, List.getElem?_replicate]
  by_cases h : c < n <;> simp [h]

theorem flatMap_nil_of {α : Type} (l : List Nat) (f : Nat → List α)
    (h : ∀ c ∈ l, f c = []) : l.flatMap f = [] := by
  induction l with
  | nil => simp
  | cons c rest ih =>
    rw [List.flatMap_cons, h c (by simp), ih (fun x hx => h x (by simp [hx]))]
    rfl

theorem flatMap_single {α : Type} (l : List Nat) (f : Nat → List α) (i : Nat)
    (h1 : ∀ c ∈ l, c ≠ i → f c = []) (h2 : l.count i = 1) : l.flatMap f = f i := by
  induction l with
  | nil => simp at h2
  | cons c rest ih =>
    rw [List.flatMap_cons]
    by_cases hc : c = i
    · subst hc
      have hz : rest.count c = 0 := by
        rw [List.count_cons] at h2
        simp at h2
        omega
      rw [List.count_eq_zero] at hz
      rw [flatMap_nil_of rest f (fun x hx => h1 x (by simp [hx]) (fun he => hz (he ▸ hx)))]
      simp
    · rw [h1 c (by simp) hc]
      have h2' : rest.count i = 1 := by
        rw [List.count_cons] at h2
        simp [hc] at h2
        omega
      rw [ih (fun x hx hne => h1 x (by simp [hx]) hne) h2']
      rfl

/-- One loop iteration of keydirNode.walk as a function of the child index. -/
def walkStep (children : List (Option KeydirNode)) (reverse : Bool) (pfx : List Byte)
    (c : Nat) : List (List Byte × RowPosition) :=
  match children.getD c none with
  | none => []
  | some child => child.walkNode reverse (pfx ++ [byteOf c])

theorem walkChildren_eq_flatMap (children : List (Option KeydirNode)) (idxs : List Nat)
    (reverse : Bool) (pfx : List Byte) :
    walkChildren children idxs reverse pfx = idxs.flatMap (walkStep children reverse pfx) := by
  induction idxs with
  | nil => simp [walkChildren]
  | cons c rest ih =>
    rw [List.flatMap_cons, ← ih]
    rw [walkChildren]
    congr 1
    split
    · rename_i hx
      unfold walkStep
      rw [hx]
    · rename_i child hx
      unfold walkStep
      rw [hx]

theorem walkNode_mk (children : List (Option KeydirNode)) (position : Option RowPosition)
    (reverse : Bool) (pfx : List Byte) :
    (KeydirNode.mk children position).walkNode reverse pfx =
      (match position with
       | some p => [(pfx, p)]
       | none => []) ++
      (keydirLoopIdxs reverse).flatMap (walkStep children reverse pfx) := by
  rw [KeydirNode.walkNode.eq_def]
  simp only [walkChildren_eq_flatMap]

/-- Walk of a node whose child array is empty apart from index i, when the
loop indices visit i exactly once. -/
theorem walkNode_single (i : Nat) (hi : i < 256) (child : KeydirNode)
    (position : Option RowPosition) (reverse : Bool) (pfx : List Byte)
    (hidx : (keydirLoopIdxs reverse).count i = 1) :
    (KeydirNode.mk ((List.replicate 256 none).set i (some child)) position).walkNode reverse pfx =
      (match position with
       | some p => [(pfx, p)]
       | none => []) ++
      child.walkNode reverse (pfx ++ [byteOf i]) := by
  rw [walkNode_mk]
  congr 1
  rw [flatMap_single _ _ i ?_ hidx]
  · unfold walkStep
    rw [getD_set_self _ _ _ _ (by rw [List.length_replicate]; exact hi)]
  · intro c _ hne
    unfold walkStep
    rw [getD_set_ne _ _ _ _ _ (Ne.symm hne), getD_replicate]

/-- Walk of a node whose child array is empty apart from index i, when the
loop never visits i: the subtree below i is skipped entirely. -/
theorem walkNode_single_skipped (i : Nat) (child : KeydirNode)
    (position : Option RowPosition) (reverse : Bool) (pfx : List Byte)
    (hidx : i ∉ keydirLoopIdxs reverse) :
    (KeydirNode.mk ((List.replicate 256 none).set i (some child)) position).walkNode reverse pfx =
      (match position with
       | some p => [(pfx, p)]
       | none => []) := by
  rw [walkNode_mk]
  rw [flatMap_nil_of]
  · simp
  · intro c hc
    unfold walkStep
    have hne : i ≠ c := fun he => hidx (he ▸ hc)
    rw [getD_set_ne _ _ _ _ _ hne, getD_replicate]

/-- Walk of a leaf node: no children. -/
theorem walkNode_leaf (position : Option RowPosition) (reverse : Bool) (pfx : List Byte) :
    (KeydirNode.mk (List.replicate 256 none) position).walkNode reverse pfx =
      (match position with
       | some p => [(pfx, p)]
       | none => []) := by
  rw [walkNode_mk]
  rw [flatMap_nil_of]
  · simp
  · intro c _
    unfold walkStep
    rw [getD_replicate]

theorem descend_nil (n : KeydirNode) : n.descend [] = some n := by
  cases n
  rfl

theorem kd_walk_none (kd : Keydir) : kd.walk none = kd.root.walkNode false [] := by
  unfold Keydir.walk
  show (match kd.root.descend [] with
    | none => []
    | some n => n.walkNode false []) = kd.root.walkNode false []
  rw [descend_nil]

theorem kd_walk_rev (kd : Keydir) :
    kd.walk (some ⟨[], true⟩) = kd.root.walkNode true [] := by
  unfold Keydir.walk
  show (match kd.root.descend [] with
    | none => []
    | some n => n.walkNode true []) = kd.root.walkNode true []
  rw [descend_nil]

/-!
### Concrete keydir states used as counterexample inputs

keyA = "a", keyAB = "ab", keyFF = the single byte 0xFF.
-/

def byteA : Byte := ⟨97, by decide⟩

def byteB : Byte := ⟨98, by decide⟩

def byteFF : Byte := ⟨255, by decide⟩

def keyA : List Byte := [byteA]

def keyAB : List Byte := [byteA, byteB]

def keyFF : List Byte := [byteFF]

def kdAB : Keydir := (emptyKeydir.set keyA ⟨0, 7⟩).set keyAB ⟨7, 8⟩

def kdFF : Keydir := emptyKeydir.set keyFF ⟨0, 7⟩

def nodeAB : KeydirNode := .mk (List.replicate 256 none) (some ⟨7, 8⟩)

def nodeA2 : KeydirNode := .mk ((List.replicate 256 none).set 98 (some nodeAB)) (some ⟨0, 7⟩)

def nodeFF : KeydirNode := .mk (List.replicate 256 none) (some ⟨0, 7⟩)

theorem kdAB_root :
    kdAB.root = KeydirNode.mk ((List.replicate 256 none).set 97 (some nodeA2)) none := rfl

theorem kdFF_root :
    kdFF.root = KeydirNode.mk ((List.replicate 256 none).set 255 (some nodeFF)) none := rfl

theorem kdFF_walk_forward : kdFF.walk none = [] := by
  rw [kd_walk_none, kdFF_root,
    walkNode_single_skipped 255 _ _ _ _ (by decide : (255 : Nat) ∉ keydirLoopIdxs false)]

theorem kdAB_walk_forward : (kdAB.walk none).map Prod.fst = [keyA, keyAB] := by
  rw [kd_walk_none, kdAB_root, walkNode_single 97 (by decide) _ _ _ _ (by decide)]
  unfold nodeA2
  rw [walkNode_single 98 (by decide) _ _ _ _ (by decide)]
  unfold nodeAB
  rw [walkNode_leaf]
  rfl

theorem kdAB_walk_reverse : (kdAB.walk (some ⟨[], true⟩)).map Prod.fst = [keyA, keyAB] := by
  rw [kd_walk_rev, kdAB_root, walkNode_single 97 (by decide) _ _ _ _ (by decide)]
  unfold nodeA2
  rw [walkNode_single 98 (by decide) _ _ _ _ (by decide)]
  unfold nodeAB
  rw [walkNode_leaf]
  rfl

/-- C2: the claim fails on the code: (a) a forward walk skips every key
whose next byte is 255 (the Go loop runs c from 0 while c != 255, so child
index 255 is never visited): the keydir holding exactly the live key 0xFF
walks no keys at all, although the key is live; (b) with live keys "a" and
"ab", the reverse walk visits "a" before "ab" (the node's own entry is
emitted before its subtrees in both directions), so the reverse sequence
equals the forward sequence instead of its reversal. -/
theorem c2_walk_code_bug :
    kdFF.count = 1 ∧ kdFF.get keyFF = some ⟨0, 7⟩ ∧ kdFF.walk none = []
      ∧ (kdAB.walk none).map Prod.fst = [keyA, keyAB]
      ∧ (kdAB.walk (some ⟨[], true⟩)).map Prod.fst = [keyA, keyAB]
      ∧ (kdAB.walk (some ⟨[], true⟩)).map Prod.fst ≠ ((kdAB.walk none).map Prod.fst).reverse := by
  refine ⟨by decide, by decide, kdFF_walk_forward, kdAB_walk_forward, kdAB_walk_reverse, ?_⟩
  rw [kdAB_walk_forward, kdAB_walk_reverse]
  decide

/-- C3: the claim fails on the code: keydir.delete decrements the count
whenever the whole key path exists in the trie, even when the key is not
live. After set("ab") and delete("a"), the key "ab" is still live but the
count is 0 instead of 1; deleting a live key twice drives the count to -1. -/
theorem c3_count_code_bug :
    ((emptyKeydir.set keyAB ⟨0, 14⟩).delete keyA).get keyAB = some ⟨0, 14⟩
      ∧ ((emptyKeydir.set keyAB ⟨0, 14⟩).delete keyA).count = 0
      ∧ (((emptyKeydir.set keyA ⟨0, 13⟩).delete keyA).delete keyA).count = -1 := by
  decide

/-!
## Transaction engine (_keydir.go engine variant)

The File is collapsed to its observable state: the log bytes (both OS
handles address the same inode), the logical write offset, and the keydir.
fsync has no observable effect on the byte contents, so the perfect-IO
success path is the identity on them; write, truncate and sync failures are
supplied through an explicit event record.
-/

structure DBFile where
  contents : List Byte
  woffset : Nat
  keydir : Keydir

def emptyDB : DBFile := ⟨[], 0, emptyKeydir⟩

/-- User-level operations buffered by Writer.Set / Writer.Delete (rw path). -/
inductive WOp where
  | set (key : List Byte) (value : List Byte)
  | del (key : List Byte)

/-- Writer.Set buffers a Row with Op '+', Writer.Delete a Row with Op '-'
and no value (_keydir.go). -/
def rowOf : WOp → Row
  | .set k v => ⟨OpSet, k, v⟩
  | .del k => ⟨OpDelete, k, []⟩

def rowsOf (ops : List WOp) : List Row := ops.map rowOf

/-- Errors an engine call can return (ordinary, recoverable returns). -/
inductive TxError where
  | fromCallback (code : Nat)
  | encodeFailed
  | writeFailed
deriving Repr, DecidableEq

/-- Result of a write transaction. The two fatal constructors model the
panics raised by handleCorruption: they unwind the process and are never
returned as ordinary errors. -/
inductive Outcome where
  | ok (db : DBFile)
  | err (db : DBFile) (e : TxError)
  | fatalMem (db : DBFile)
  | fatalFile (db : DBFile)

def Outcome.state : Outcome → DBFile
  | .ok db => db
  | .err db _ => db
  | .fatalMem db => db
  | .fatalFile db => db

def Outcome.isFatal : Outcome → Bool
  | .fatalMem _ => true
  | .fatalFile _ => true
  | _ => false

/-- I/O failures injected into a commit: one entry per row append (none =
full write, some n = write error after n bytes), whether os.Truncate would
succeed, and whether fsync would succeed. An empty writeResults list means
every append succeeds. -/
structure IOEvents where
  writeResults : List (Option Nat)
  truncateOk : Bool
  syncOk : Bool

/-- Every append succeeds, truncate and fsync succeed. -/
def evOk : IOEvents := ⟨[], true, true⟩

/-- The keydir update of one committed row (_keydir.go ReadWrite step 3):
Set inserts the position of the row just written, Delete removes the key.
The default branch is unreachable for rows built by the Writer. -/
def updateKd (kd : Keydir) (row : Row) (off n : Nat) : Keydir :=
  if row.op = OpSet then kd.set row.key ⟨off, n⟩
  else if row.op = OpDelete then kd.delete row.key
  else kd

/-- handleCorruption (_keydir.go): truncate the file back to start; panic
with memstate corruption when truncation succeeds, file corruption when it
fails. -/
def handleCorruption (db : DBFile) (start : Nat) (truncateOk : Bool) : Outcome :=
  if truncateOk then .fatalMem ⟨db.contents.take start, db.woffset, db.keydir⟩
  else .fatalFile db

/-- The commit loop of ReadWrite (_keydir.go): encode each row, append it,
update the keydir. An encode or write failure returns an ordinary error if
the logical offset still equals start, and otherwise goes through
handleCorruption. -/
def commitRows (db : DBFile) (start : Nat) (rows : List Row)
    (wres : List (Option Nat)) (truncateOk : Bool) : Outcome :=
  match rows with
  | [] => .ok db
  | row :: rest =>
    match row.encode with
    | none =>
      if db.woffset = start then .err db .encodeFailed
      else handleCorruption db start truncateOk
    | some encoded =>
      match wres.headD none with
      | none =>
        commitRows ⟨db.contents ++ encoded, db.woffset + encoded.length,
          updateKd db.keydir row db.woffset encoded.length⟩ start rest wres.tail truncateOk
      | some n =>
        if db.woffset + n = start then
          .err ⟨db.contents ++ encoded.take n, db.woffset + n, db.keydir⟩ .writeFailed
        else handleCorruption ⟨db.contents ++ encoded.take n, db.woffset + n, db.keydir⟩
          start truncateOk

/-- The callback's observable result: the rows it buffered through the
Writer and the error it returned, if any. -/
structure CallbackRes where
  ops : List WOp
  err : Option Nat

/-- File.ReadWrite (_keydir.go): run the callback (an error aborts with
nothing written), then commit the buffered rows and fsync; a sync failure
goes through handleCorruption. -/
def readWrite (db : DBFile) (cb : CallbackRes) (ev : IOEvents) : Outcome :=
  match cb.err with
  | some e => .err db (.fromCallback e)
  | none =>
    match commitRows db db.woffset (rowsOf cb.ops) ev.writeResults ev.truncateOk with
    | .ok db2 =>
      if ev.syncOk then .ok db2
      else handleCorruption db2 db.woffset ev.truncateOk
    | .err db2 e => .err db2 e
    | .fatalMem db2 => .fatalMem db2
    | .fatalFile db2 => .fatalFile db2

/-- A sequence of write transactions, each committed through readWrite with
perfect I/O; stops at the first non-ok outcome. -/
def runTxs (db : DBFile) (txs : List (List WOp)) : Outcome :=
  match txs with
  | [] => .ok db
  | tx :: rest =>
    match readWrite db ⟨tx, none⟩ evOk with
    | .ok db2 => runTxs db2 rest
    | o => o

/-!
## Reader operations (_keydir.go)
-/

/-- f.r.ReadAt for a row position: the size bytes at offset, an error (none)
when the range extends past end of file. -/
def readAt (contents : List Byte) (pos : RowPosition) : Option (List Byte) :=
  if pos.offset + pos.size ≤ contents.length then
    some ((contents.drop pos.offset).take pos.size)
  else none

/-- Reader.Get: keydir lookup, then positional read and decode. The outer
Option is the error channel (none = internal read or decode error), the
inner Option the absent-key result (Go nil value, no error). -/
def readerGet (db : DBFile) (key : List Byte) : Option (Option (List Byte)) :=
  match db.keydir.get key with
  | none => some none
  | some pos =>
    match readAt db.contents pos with
    | none => none
    | some bytes =>
      match Row.decodeFrom bytes with
      | none => none
      | some (row, _) => some (some row.value)

/-- Reader.Has: a key is known when the keydir holds a position for it. -/
def readerHas (db : DBFile) (key : List Byte) : Bool :=
  (db.keydir.get key).isSome

/-- Reader.Count: the keydir's live-key count. -/
def readerCount (db : DBFile) : Int := db.keydir.count

/-- Reader.Walk: walk the keydir, passing only keys to the visitor. -/
def readerWalkKeys (db : DBFile) (opts : Option WalkOptions) : List (List Byte) :=
  (db.keydir.walk opts).map Prod.fst

/-- File.Compact (_keydir.go), success path: walk the keydir forward,
copy each row's bytes verbatim into the fresh file, and record the new
position in a fresh keydir; finally swap contents, keydir and offset. -/
def compact (db : DBFile) : DBFile :=
  let step := fun (acc : List Byte × Keydir) (kp : List Byte × RowPosition) =>
    let encodedRow := (db.contents.drop kp.2.offset).take kp.2.size
    (acc.1 ++ encodedRow, acc.2.set kp.1 ⟨acc.1.length, kp.2.size⟩)
  let r := (db.keydir.walk none).foldl step ([], emptyKeydir)
  ⟨r.1, r.1.length, r.2⟩

/-! ### Commit loop case analysis -/

theorem encode_pos (row : Row) (e : ByteStr) (h : row.encode = some e) :
    0 < e.length := by
  have := encode_length row e h
  unfold encLen at this
  omega

/-- An ordinary error from the commit loop happens only with the file and
keydir untouched, while the logical offset still equals start. -/
theorem commitRows_err_eq (rows : List Row) :
    ∀ (db : DBFile) (start : Nat) (wres : List (Option Nat)) (tOk : Bool)
      (db2 : DBFile) (e : TxError),
    start ≤ db.woffset →
    commitRows db start rows wres tOk = .err db2 e → db2 = db ∧ db.woffset = start := by
  induction rows with
  | nil =>
    intro db start wres tOk db2 e hle h
    simp [commitRows] at h
  | cons row rest ih =>
    intro db start wres tOk db2 e hle h
    rw [commitRows] at h
    split at h
    · split at h
      · rename_i hw
        cases h
        exact ⟨rfl, hw⟩
      · unfold handleCorruption at h
        split at h
        · cases h
        · cases h
    · rename_i encoded henc
      split at h
      · have hpos : 0 < encoded.length := encode_pos row encoded henc
        obtain ⟨_, h2⟩ := ih _ start wres.tail tOk db2 e
          (show start ≤ db.woffset + encoded.length by omega) h
        have h2' : db.woffset + encoded.length = start := h2
        exfalso
        omega
      · rename_i n hwr
        split at h
        · rename_i hw
          cases h
          have hn : n = 0 := by omega
          subst hn
          refine ⟨?_, by omega⟩
          cases db
          simp
        · unfold handleCorruption at h
          split at h
          · cases h
          · cases h

/-- A memstate-corruption fatal from the commit loop implies truncation
succeeded and the file was cut back to the first start bytes. -/
theorem commitRows_fatalMem_eq (rows : List Row) :
    ∀ (db : DBFile) (start : Nat) (wres : List (Option Nat)) (tOk : Bool) (db2 : DBFile),
    start ≤ db.contents.length →
    commitRows db start rows wres tOk = .fatalMem db2 →
    tOk = true ∧ db2.contents = db.contents.take start := by
  induction rows with
  | nil =>
    intro db start wres tOk db2 hlc h
    simp [commitRows] at h
  | cons row rest ih =>
    intro db start wres tOk db2 hlc h
    rw [commitRows] at h
    split at h
    · split at h
      · cases h
      · unfold handleCorruption at h
        split at h
        · rename_i ht
          cases h
          exact ⟨ht, rfl⟩
        · cases h
    · rename_i encoded henc
      split at h
      · obtain ⟨ht, hc⟩ := ih _ start wres.tail tOk db2
          (show start ≤ (db.contents ++ encoded).length by
            rw [List.length_append]; omega) h
        refine ⟨ht, ?_⟩
        rw [hc]
        show (db.contents ++ encoded).take start = db.contents.take start
        rw [List.take_append_of_le_length hlc]
      · rename_i n hwr
        split at h
        · cases h
        · unfold handleCorruption at h
          split at h
          · rename_i ht
            cases h
            refine ⟨ht, ?_⟩
            show (db.contents ++ encoded.take n).take start = db.contents.take start
            rw [List.take_append_of_le_length hlc]
          · cases h

/-- A file-corruption fatal from the commit loop implies truncation failed. -/
theorem commitRows_fatalFile_eq (rows : List Row) :
    ∀ (db : DBFile) (start : Nat) (wres : List (Option Nat)) (tOk : Bool) (db2 : DBFile),
    commitRows db start rows wres tOk = .fatalFile db2 → tOk = false := by
  induction rows with
  | nil =>
    intro db start wres tOk db2 h
    simp [commitRows] at h
  | cons row rest ih =>
    intro db start wres tOk db2 h
    rw [commitRows] at h
    split at h
    · split at h
      · cases h
      · unfold handleCorruption at h
        split at h
        · cases h
        · rename_i ht
          cases h
          simpa using ht
    · split at h
      · exact ih _ start wres.tail tOk db2 h
      · split at h
        · cases h
        · unfold handleCorruption at h
          split at h
          · cases h
          · rename_i ht
            cases h
            simpa using ht

/-- A successful commit loop extends the file: the first start bytes are
unchanged and the file does not shrink. -/
theorem commitRows_ok_take (rows : List Row) :
    ∀ (db : DBFile) (start : Nat) (wres : List (Option Nat)) (tOk : Bool) (db2 : DBFile),
    start ≤ db.contents.length →
    commitRows db start rows wres tOk = .ok db2 →
    db2.contents.take start = db.contents.take start ∧ start ≤ db2.contents.length := by
  induction rows with
  | nil =>
    intro db start wres tOk db2 hlc h
    rw [commitRows] at h
    cases h
    exact ⟨rfl, hlc⟩
  | cons row rest ih =>
    intro db start wres tOk db2 hlc h
    rw [commitRows] at h
    split at h
    · split at h
      · cases h
      · unfold handleCorruption at h
        split at h
        · cases h
        · cases h
    · rename_i encoded henc
      split at h
      · obtain ⟨h1, h2⟩ := ih _ start wres.tail tOk db2
          (show start ≤ (db.contents ++ encoded).length by
            rw [List.length_append]; omega) h
        refine ⟨?_, h2⟩
        rw [h1]
        show (db.contents ++ encoded).take start = db.contents.take start
        rw [List.take_append_of_le_length hlc]
      · split at h
        · cases h
        · unfold handleCorruption at h
          split at h
          · cases h
          · cases h

/-! ### The perfect-IO success path -/

def validRow (r : Row) : Prop :=
  r.key.length ≤ MaxKeyLength ∧ r.value.length ≤ MaxValueLength

/-- Concatenation of the encodings of a row list (valid rows assumed). -/
def encodeAll : List Row → ByteStr
  | [] => []
  | r :: rest => r.encode.getD [] ++ encodeAll rest

/-- The keydir updates a successfully committed row list performs, with the
running logical offset. -/
def logApply (kd : Keydir) (w : Nat) : List Row → Keydir
  | [] => kd
  | r :: rest => logApply (updateKd kd r w (encLen r)) (w + encLen r) rest

theorem commitRows_perfect (rows : List Row) :
    ∀ (db : DBFile) (start : Nat) (tOk : Bool),
    (∀ r ∈ rows, validRow r) →
    commitRows db start rows [] tOk =
      .ok ⟨db.contents ++ encodeAll rows, db.woffset + (encodeAll rows).length,
        logApply db.keydir db.woffset rows⟩ := by
  induction rows with
  | nil =>
    intro db start tOk hv
    rw [commitRows]
    cases db
    simp [encodeAll, logApply]
  | cons r rest ih =>
    intro db start tOk hv
    obtain ⟨hk, hvl⟩ := hv r (by simp)
    have henc := encode_eq_some r hk hvl
    have hlen := encode_length r _ henc
    rw [commitRows]
    rw [henc]
    show commitRows _ start rest [] tOk = _
    rw [ih _ start tOk (fun x hx => hv x (by simp [hx]))]
    simp only [encodeAll, henc, Option.getD_some, Outcome.ok.injEq, DBFile.mk.injEq]
    refine ⟨by rw [List.append_assoc], by simp only [List.length_append]; omega, ?_⟩
    show logApply (updateKd db.keydir r db.woffset _) (db.woffset + _) rest =
      logApply db.keydir db.woffset (r :: rest)
    rw [logApply, hlen]

/-- readWrite with a valid callback and perfect I/O commits every buffered
row: the encodings are appended in order and the keydir absorbs the
corresponding set and delete operations. -/
theorem readWrite_perfect (db : DBFile) (ops : List WOp)
    (hv : ∀ r ∈ rowsOf ops, validRow r) :
    readWrite db ⟨ops, none⟩ evOk =
      .ok ⟨db.contents ++ encodeAll (rowsOf ops),
        db.woffset + (encodeAll (rowsOf ops)).length,
        logApply db.keydir db.woffset (rowsOf ops)⟩ := by
  show (match commitRows db db.woffset (rowsOf ops) [] true with
    | Outcome.ok db2 => if true = true then Outcome.ok db2 else handleCorruption db2 db.woffset true
    | Outcome.err db2 e => Outcome.err db2 e
    | Outcome.fatalMem db2 => Outcome.fatalMem db2
    | Outcome.fatalFile db2 => Outcome.fatalFile db2) = _
  rw [commitRows_perfect (rowsOf ops) db db.woffset true hv]
  rfl

/-- C5: If the callback of a write transaction returns a non-nil error,
readWrite writes nothing to the file, leaves the keydir unchanged, and
propagates that same error unchanged; more generally, whenever readWrite
returns an ordinary (non-fatal) error, the database state is exactly the
pre-transaction state, so get and has of every key (touched or not) return
their pre-transaction values. -/
theorem c5_abort_atomicity (db : DBFile) (cb : CallbackRes) (ev : IOEvents) :
    (∀ e, cb.err = some e → readWrite db cb ev = .err db (.fromCallback e))
      ∧ (∀ db2 e, readWrite db cb ev = .err db2 e →
          db2 = db ∧ ∀ k, readerGet db2 k = readerGet db k
            ∧ readerHas db2 k = readerHas db k) := by
  constructor
  · intro e he
    unfold readWrite
    rw [he]
  · intro db2 e h
    unfold readWrite at h
    split at h
    · cases h
      exact ⟨rfl, fun k => ⟨rfl, rfl⟩⟩
    · split at h
      · split at h
        · cases h
        · unfold handleCorruption at h
          split at h
          · cases h
          · cases h
      · rename_i dbx ex heq
        cases h
        obtain ⟨h1, _⟩ := commitRows_err_eq (rowsOf cb.ops) db db.woffset
          ev.writeResults ev.truncateOk _ _ (le_refl _) heq
        subst h1
        exact ⟨rfl, fun k => ⟨rfl, rfl⟩⟩
      · cases h
      · cases h

theorem c5_abort_atomicity_witness :
    readWrite emptyDB ⟨[], some 7⟩ evOk = .err emptyDB (.fromCallback 7) :=
  (c5_abort_atomicity emptyDB ⟨[], some 7⟩ evOk).1 7 rfl

/-- C6: during commit, an encode or write failure at the pre-transaction
offset is an ordinary error with the state untouched; a failure after bytes
were written truncates back to start and raises the memory-corrupt fatal
when truncation succeeds or the file-corrupt fatal when it fails; an fsync
failure after otherwise-successful writes is fatal too; fatal signals are
distinct outcome constructors, never ordinary error returns. -/
theorem c6_corruption_protocol (db : DBFile) (cb : CallbackRes) (ev : IOEvents)
    (hwf : db.woffset = db.contents.length) :
    (∀ db2 e, readWrite db cb ev = .err db2 e → db2 = db)
      ∧ (∀ db2, readWrite db cb ev = .fatalMem db2 →
          ev.truncateOk = true ∧ db2.contents = db.contents)
      ∧ (∀ db2, readWrite db cb ev = .fatalFile db2 → ev.truncateOk = false)
      ∧ (cb.err = none → ev.writeResults = [] → ev.syncOk = false →
          (∀ r ∈ rowsOf cb.ops, validRow r) →
          (readWrite db cb ev).isFatal = true) := by
  have hlc : db.woffset ≤ db.contents.length := by omega
  refine ⟨?_, ?_, ?_, ?_⟩
  · intro db2 e h
    unfold readWrite at h
    split at h
    · cases h
      rfl
    · split at h
      · split at h
        · cases h
        · unfold handleCorruption at h
          split at h
          · cases h
          · cases h
      · rename_i dbx ex heq
        cases h
        exact (commitRows_err_eq (rowsOf cb.ops) db db.woffset
          ev.writeResults ev.truncateOk _ _ (le_refl _) heq).1
      · cases h
      · cases h
  · intro db2 h
    unfold readWrite at h
    split at h
    · cases h
    · split at h
      · rename_i dbx heq
        split at h
        · cases h
        · unfold handleCorruption at h
          split at h
          · rename_i ht
            cases h
            refine ⟨ht, ?_⟩
            obtain ⟨htake, _⟩ := commitRows_ok_take (rowsOf cb.ops) db db.woffset
              ev.writeResults ev.truncateOk dbx hlc heq
            show dbx.contents.take db.woffset = db.contents
            rw [htake, hwf, List.take_length]
          · cases h
      · cases h
      · rename_i dbx heq
        cases h
        obtain ⟨ht, hc⟩ := commitRows_fatalMem_eq (rowsOf cb.ops) db db.woffset
          ev.writeResults ev.truncateOk _ hlc heq
        refine ⟨ht, ?_⟩
        rw [hc, hwf, List.take_length]
      · cases h
  · intro db2 h
    unfold readWrite at h
    split at h
    · cases h
    · split at h
      · split at h
        · cases h
        · unfold handleCorruption at h
          split at h
          · cases h
          · rename_i ht
            simpa using ht
      · cases h
      · cases h
      · rename_i dbx heq
        cases h
        exact commitRows_fatalFile_eq (rowsOf cb.ops) db db.woffset
          ev.writeResults ev.truncateOk _ heq
  · intro hcb hwr hsync hv
    have hrw : readWrite db cb ev =
        handleCorruption ⟨db.contents ++ encodeAll (rowsOf cb.ops),
          db.woffset + (encodeAll (rowsOf cb.ops)).length,
          logApply db.keydir db.woffset (rowsOf cb.ops)⟩ db.woffset ev.truncateOk := by
      unfold readWrite
      rw [hcb, hwr]
      rw [commitRows_perfect (rowsOf cb.ops) db db.woffset ev.truncateOk hv]
      rw [hsync]
      rfl
    rw [hrw]
    unfold handleCorruption
    by_cases ht : ev.truncateOk = true
    · rw [if_pos ht]
      rfl
    · rw [if_neg ht]
      rfl

def cbW : CallbackRes := ⟨[WOp.set keyA [byteA]], none⟩

def evW : IOEvents := ⟨[some 3], true, true⟩

def dbW : DBFile := ⟨[], 3, emptyKeydir⟩

theorem c6_corruption_protocol_witness :
    emptyDB.woffset = emptyDB.contents.length
      ∧ (evW.truncateOk = true ∧ dbW.contents = emptyDB.contents) :=
  ⟨rfl, (c6_corruption_protocol emptyDB cbW evW rfl).2.1 dbW rfl⟩

/-! ### Trie keydir correctness -/

/-- Well-formed trie node: the child array has exactly 256 slots (the Go
[256]*keydirNode array) and every child is well formed. -/
inductive NodeWF : KeydirNode → Prop where
  | mk (children : List (Option KeydirNode)) (position : Option RowPosition)
      (hlen : children.length = 256)
      (hch : ∀ n, some n ∈ children → NodeWF n) :
      NodeWF (.mk children position)

theorem getD_mem {α : Type} (l : List (Option α)) (c : Nat) (x : α)
    (h : l.getD c none = some x) : some x ∈ l := by
  rw [List.getD_eq_getElem?_getD] at h
  rcases hg : l[c]? with _ | y
  · rw [hg] at h
    simp at h
  · rw [hg] at h
    simp at h
    subst h
    rw [← List.get?_eq_getElem?] at hg
    exact List.get?_mem hg

theorem nodeWF_empty : NodeWF emptyNode := by
  refine NodeWF.mk _ _ (by simp) ?_
  intro n hn
  exfalso
  have := List.eq_of_mem_replicate hn
  simp at this

theorem getKey_empty (k : List Byte) : emptyNode.getKey k = none := by
  cases k with
  | nil => rfl
  | cons c rest =>
    show KeydirNode.getKey (.mk (List.replicate 256 none) none) (c :: rest) = none
    rw [KeydirNode.getKey, getD_replicate]

/-- The child the set loop descends into, and its well-formedness. -/
theorem child_wf (children : List (Option KeydirNode)) (position : Option RowPosition)
    (c : Nat) (h : NodeWF (.mk children position)) :
    NodeWF ((children.getD c none).getD emptyNode) := by
  rcases hc : children.getD c none with _ | ch0
  · exact nodeWF_empty
  · cases h with
    | mk _ _ hlen hch => exact hch ch0 (getD_mem _ _ _ hc)

theorem nodeWF_set (k : List Byte) :
    ∀ (n : KeydirNode) (p : RowPosition), NodeWF n → NodeWF (n.setKey k p).1 := by
  induction k with
  | nil =>
    intro n p h
    cases n with
    | mk children position =>
      cases h with
      | mk _ _ hlen hch => exact NodeWF.mk _ _ hlen hch
  | cons c rest ih =>
    intro n p h
    cases n with
    | mk children position =>
      have hchild := child_wf children position c.val h
      cases h with
      | mk _ _ hlen hch =>
        refine NodeWF.mk _ _ (by rw [List.length_set]; exact hlen) ?_
        intro x hx
        rcases List.mem_or_eq_of_mem_set hx with hmem | heq
        · exact hch x hmem
        · cases heq
          exact ih _ p hchild

theorem getKey_setKey_self (k : List Byte) :
    ∀ (n : KeydirNode) (p : RowPosition), NodeWF n →
    (n.setKey k p).1.getKey k = some p := by
  induction k with
  | nil =>
    intro n p h
    cases n
    rfl
  | cons c rest ih =>
    intro n p h
    cases n with
    | mk children position =>
      have hchild := child_wf children position c.val h
      cases h with
      | mk _ _ hlen hch =>
        show KeydirNode.getKey (.mk (children.set c.val _) position) (c :: rest) = _
        rw [KeydirNode.getKey, getD_set_self _ _ _ _ (by rw [hlen]; exact c.isLt)]
        exact ih _ p hchild

theorem getKey_setKey_ne (k : List Byte) :
    ∀ (n : KeydirNode) (k' : List Byte) (p : RowPosition), NodeWF n → k' ≠ k →
    (n.setKey k p).1.getKey k' = n.getKey k' := by
  induction k with
  | nil =>
    intro n k' p h hne
    cases n with
    | mk children position =>
      cases k' with
      | nil => exact absurd rfl hne
      | cons c' r' =>
        show KeydirNode.getKey (.mk children (some p)) (c' :: r') = _
        rw [KeydirNode.getKey, KeydirNode.getKey]
  | cons c rest ih =>
    intro n k' p h hne
    cases n with
    | mk children position =>
      have hchild := child_wf children position c.val h
      cases h with
      | mk _ _ hlen hch =>
        cases k' with
        | nil => rfl
        | cons c' r' =>
          show KeydirNode.getKey (.mk (children.set c.val _) position) (c' :: r') = _
          rw [KeydirNode.getKey, KeydirNode.getKey]
          by_cases hcc : c' = c
          · subst hcc
            rw [getD_set_self _ _ _ _ (by rw [hlen]; exact c'.isLt)]
            have hrr : r' ≠ rest := fun hr => hne (by rw [hr])
            rcases hc : children.getD c'.val none with _ | ch0
            · show KeydirNode.getKey ((emptyNode.setKey rest p).1) r' = none
              rw [ih emptyNode r' p nodeWF_empty hrr, getKey_empty]
            · show KeydirNode.getKey ((ch0.setKey rest p).1) r' = ch0.getKey r'
              exact ih ch0 r' p (hch ch0 (getD_mem _ _ _ hc)) hrr
          · have hvv : c.val ≠ c'.val := fun hv => hcc (Fin.val_injective hv).symm
            rw [getD_set_ne _ _ _ _ _ hvv]

theorem emptyNode_setKey_isNew (k : List Byte) :
    ∀ p, (emptyNode.setKey k p).2 = true := by
  induction k with
  | nil => intro p; rfl
  | cons c rest ih =>
    intro p
    show (KeydirNode.setKey (.mk (List.replicate 256 none) none) (c :: rest) p).2 = true
    rw [KeydirNode.setKey, getD_replicate]
    exact ih p

theorem setKey_isNew (k : List Byte) :
    ∀ (n : KeydirNode) (p : RowPosition), (n.setKey k p).2 = (n.getKey k).isNone := by
  induction k with
  | nil =>
    intro n p
    cases n
    rfl
  | cons c rest ih =>
    intro n p
    cases n with
    | mk children position =>
      rw [KeydirNode.setKey, KeydirNode.getKey]
      rcases hc : children.getD c.val none with _ | ch0
      · show (emptyNode.setKey rest p).2 = true
        exact emptyNode_setKey_isNew rest p
      · exact ih ch0 p

theorem deleteKey_none_get (k : List Byte) :
    ∀ (n : KeydirNode), n.deleteKey k = none → n.getKey k = none := by
  induction k with
  | nil =>
    intro n h
    cases n
    simp [KeydirNode.deleteKey] at h
  | cons c rest ih =>
    intro n h
    cases n with
    | mk children position =>
      rw [KeydirNode.deleteKey] at h
      rw [KeydirNode.getKey]
      rcases hc : children.getD c.val none with _ | ch0
      · rfl
      · simp only [hc] at h
        rcases hd : ch0.deleteKey rest with _ | ch2
        · exact ih ch0 hd
        · simp [hd] at h

theorem nodeWF_delete (k : List Byte) :
    ∀ (n n' : KeydirNode), NodeWF n → n.deleteKey k = some n' → NodeWF n' := by
  induction k with
  | nil =>
    intro n n' h hd
    cases n with
    | mk children position =>
      rw [KeydirNode.deleteKey] at hd
      cases hd
      cases h with
      | mk _ _ hlen hch => exact NodeWF.mk _ _ hlen hch
  | cons c rest ih =>
    intro n n' h hd
    cases n with
    | mk children position =>
      rw [KeydirNode.deleteKey] at hd
      rcases hc : children.getD c.val none with _ | ch0
      · simp only [hc] at hd
        cases hd
      · simp only [hc] at hd
        rcases hdd : ch0.deleteKey rest with _ | ch2
        · simp only [hdd] at hd
          cases hd
        · simp only [hdd, Option.some.injEq] at hd
          subst hd
          cases h with
          | mk _ _ hlen hch =>
            refine NodeWF.mk _ _ (by rw [List.length_set]; exact hlen) ?_
            intro x hx
            rcases List.mem_or_eq_of_mem_set hx with hmem | heq
            · exact hch x hmem
            · cases heq
              exact ih ch0 ch2 (hch ch0 (getD_mem _ _ _ hc)) hdd

theorem getKey_deleteKey_self (k : List Byte) :
    ∀ (n n' : KeydirNode), NodeWF n → n.deleteKey k = some n' → n'.getKey k = none := by
  induction k with
  | nil =>
    intro n n' h hd
    cases n with
    | mk children position =>
      rw [KeydirNode.deleteKey] at hd
      cases hd
      rfl
  | cons c rest ih =>
    intro n n' h hd
    cases n with
    | mk children position =>
      rw [KeydirNode.deleteKey] at hd
      rcases hc : children.getD c.val none with _ | ch0
      · simp only [hc] at hd
        cases hd
      · simp only [hc] at hd
        rcases hdd : ch0.deleteKey rest with _ | ch2
        · simp only [hdd] at hd
          cases hd
        · simp only [hdd, Option.some.injEq] at hd
          subst hd
          cases h with
          | mk _ _ hlen hch =>
            rw [KeydirNode.getKey, getD_set_self _ _ _ _ (by rw [hlen]; exact c.isLt)]
            exact ih ch0 ch2 (hch ch0 (getD_mem _ _ _ hc)) hdd

theorem getKey_deleteKey_ne (k : List Byte) :
    ∀ (n n' : KeydirNode) (k' : List Byte), NodeWF n → k' ≠ k →
    n.deleteKey k = some n' → n'.getKey k' = n.getKey k' := by
  induction k with
  | nil =>
    intro n n' k' h hne hd
    cases n with
    | mk children position =>
      rw [KeydirNode.deleteKey] at hd
      cases hd
      cases k' with
      | nil => exact absurd rfl hne
      | cons c' r' =>
        rw [KeydirNode.getKey, KeydirNode.getKey]
  | cons c rest ih =>
    intro n n' k' h hne hd
    cases n with
    | mk children position =>
      rw [KeydirNode.deleteKey] at hd
      rcases hc : children.getD c.val none with _ | ch0
      · simp only [hc] at hd
        cases hd
      · simp only [hc] at hd
        rcases hdd : ch0.deleteKey rest with _ | ch2
        · simp only [hdd] at hd
          cases hd
        · simp only [hdd, Option.some.injEq] at hd
          subst hd
          cases h with
          | mk _ _ hlen hch =>
            cases k' with
            | nil => rfl
            | cons c' r' =>
              rw [KeydirNode.getKey, KeydirNode.getKey]
              by_cases hcc : c' = c
              · subst hcc
                rw [getD_set_self _ _ _ _ (by rw [hlen]; exact c'.isLt), hc]
                have hrr : r' ≠ rest := fun hr => hne (by rw [hr])
                exact ih ch0 ch2 r' (hch ch0 (getD_mem _ _ _ hc)) hrr hdd
              · have hvv : c.val ≠ c'.val := fun hv => hcc (Fin.val_injective hv).symm
                rw [getD_set_ne _ _ _ _ _ hvv]

/-! ### Keydir-level corollaries -/

def KdWF (kd : Keydir) : Prop := NodeWF kd.root

theorem kdWF_empty : KdWF emptyKeydir := nodeWF_empty

theorem kdWF_set (kd : Keydir) (k : List Byte) (p : RowPosition) (h : KdWF kd) :
    KdWF (kd.set k p) := nodeWF_set k kd.root p h

theorem kdWF_delete (kd : Keydir) (k : List Byte) (h : KdWF kd) :
    KdWF (kd.delete k) := by
  unfold Keydir.delete
  rcases hd : kd.root.deleteKey k with _ | root2
  · exact h
  · exact nodeWF_delete k kd.root root2 h hd

theorem get_empty (k : List Byte) : emptyKeydir.get k = none := getKey_empty k

theorem get_set_self (kd : Keydir) (k : List Byte) (p : RowPosition) (h : KdWF kd) :
    (kd.set k p).get k = some p := getKey_setKey_self k kd.root p h

theorem get_set_ne (kd : Keydir) (k k' : List Byte) (p : RowPosition) (h : KdWF kd)
    (hne : k' ≠ k) : (kd.set k p).get k' = kd.get k' := getKey_setKey_ne k kd.root k' p h hne

theorem get_delete_self (kd : Keydir) (k : List Byte) (h : KdWF kd) :
    (kd.delete k).get k = none := by
  unfold Keydir.delete
  rcases hd : kd.root.deleteKey k with _ | root2
  · exact deleteKey_none_get k kd.root hd
  · exact getKey_deleteKey_self k kd.root root2 h hd

theorem get_delete_ne (kd : Keydir) (k k' : List Byte) (h : KdWF kd) (hne : k' ≠ k) :
    (kd.delete k).get k' = kd.get k' := by
  unfold Keydir.delete
  rcases hd : kd.root.deleteKey k with _ | root2
  · rfl
  · exact getKey_deleteKey_ne k kd.root root2 k' h hne hd

/-!
## Log replay (Open, _keydir.go) and the last-write specification
-/

/-- The byte count consumed by a successful decode is positive (the header
alone is 6 bytes). -/
theorem decodeFrom_pos (bs : ByteStr) (row : Row) (n : Nat)
    (h : Row.decodeFrom bs = some (row, n)) : 0 < n := by
  rcases bs with _ | ⟨b0, bs⟩
  · simp [Row.decodeFrom] at h
  rcases bs with _ | ⟨b1, bs⟩
  · simp [Row.decodeFrom] at h
  rcases bs with _ | ⟨b2, bs⟩
  · simp [Row.decodeFrom] at h
  rcases bs with _ | ⟨b3, bs⟩
  · simp [Row.decodeFrom] at h
  rcases bs with _ | ⟨b4, bs⟩
  · simp [Row.decodeFrom] at h
  rcases bs with _ | ⟨b5, rest⟩
  · simp [Row.decodeFrom] at h
  simp only [Row.decodeFrom] at h
  split at h
  · split at h
    · cases h
      omega
    · cases h
  · cases h

/-- Open-time replay (_keydir.go Open): decode rows from the head, apply
Set and Delete to the keydir with the position of the decoded bytes; a
clean end of input is reaching the empty tail; any decode failure or
unknown op fails the open (none). -/
def replay (kd : Keydir) (w : Nat) (bs : ByteStr) : Option Keydir :=
  if hbs : bs = [] then some kd
  else
    match hdec : Row.decodeFrom bs with
    | none => none
    | some (row, n) =>
      if row.op = OpSet then replay (kd.set row.key ⟨w, n⟩) (w + n) (bs.drop n)
      else if row.op = OpDelete then replay (kd.delete row.key) (w + n) (bs.drop n)
      else none
termination_by bs.length
decreasing_by
  · have hpos := decodeFrom_pos _ _ _ hdec
    have hne : 0 < bs.length := List.length_pos.mpr hbs
    simp only [List.length_drop]
    omega
  · have hpos := decodeFrom_pos _ _ _ hdec
    have hne : 0 < bs.length := List.length_pos.mpr hbs
    simp only [List.length_drop]
    omega

/-- A user operation respecting the engine's length bounds. -/
def validWOp : WOp → Prop
  | .set k v => k.length ≤ MaxKeyLength ∧ v.length ≤ MaxValueLength
  | .del k => k.length ≤ MaxKeyLength

instance (op : WOp) : Decidable (validWOp op) :=
  match op with
  | .set k v => inferInstanceAs (Decidable (_ ∧ _))
  | .del k => inferInstanceAs (Decidable (_ ≤ _))

def wopKey : WOp → List Byte
  | .set k _ => k
  | .del k => k

/-- Specification: the last operation in S whose key is k (later operations
win). -/
def lastWOpFor (k : List Byte) : List WOp → Option WOp
  | [] => none
  | op :: rest =>
    match lastWOpFor k rest with
    | some o => some o
    | none => if wopKey op = k then some op else none

/-- Specification: the value of the last Set(k, v) in S unless a later
Delete(k) appears; none otherwise. -/
def lastWriteValue (ops : List WOp) (k : List Byte) : Option (List Byte) :=
  match lastWOpFor k ops with
  | some (.set _ v) => some v
  | _ => none

/-- The rows of the log annotated with the position each encoding occupies,
starting at offset w. -/
def annotateRows (w : Nat) : List Row → List (Row × RowPosition)
  | [] => []
  | r :: rest => (r, ⟨w, encLen r⟩) :: annotateRows (w + encLen r) rest

/-- Specification: the most recent row in the log whose key is k, with its
position. -/
def lastRowFor (k : List Byte) : List (Row × RowPosition) → Option (Row × RowPosition)
  | [] => none
  | x :: l =>
    match lastRowFor k l with
    | some y => some y
    | none => if x.1.key = k then some x else none

/-! ### The keydir after a committed row sequence -/

theorem kdWF_updateKd (kd : Keydir) (row : Row) (off n : Nat) (h : KdWF kd) :
    KdWF (updateKd kd row off n) := by
  unfold updateKd
  by_cases h1 : row.op = OpSet
  · rw [if_pos h1]
    exact kdWF_set kd row.key ⟨off, n⟩ h
  · rw [if_neg h1]
    by_cases h2 : row.op = OpDelete
    · rw [if_pos h2]
      exact kdWF_delete kd row.key h
    · rw [if_neg h2]
      exact h

theorem get_updateKd (kd : Keydir) (row : Row) (off n : Nat) (k : List Byte)
    (h : KdWF kd) (hop : row.op = OpSet ∨ row.op = OpDelete) :
    (updateKd kd row off n).get k =
      if row.key = k then
        (if row.op = OpSet then some ⟨off, n⟩ else none)
      else kd.get k := by
  unfold updateKd
  rcases hop with hset | hdel
  · rw [if_pos hset, if_pos hset]
    by_cases hk : row.key = k
    · rw [if_pos hk, ← hk]
      exact get_set_self kd row.key ⟨off, n⟩ h
    · rw [if_neg hk]
      exact get_set_ne kd row.key k ⟨off, n⟩ h (fun he => hk he.symm)
  · have hns : ¬ row.op = OpSet := by
      rw [hdel]
      decide
    rw [if_neg hns, if_pos hdel, if_neg hns]
    by_cases hk : row.key = k
    · rw [if_pos hk, ← hk]
      exact get_delete_self kd row.key h
    · rw [if_neg hk]
      exact get_delete_ne kd row.key k h (fun he => hk he.symm)

/-- The position the keydir derives from the most recent row for a key:
a Set row's position, absence for a Delete row, the fallback when the log
has no row for the key. -/
def posFromLast (x : Option (Row × RowPosition)) (dflt : Option RowPosition) :
    Option RowPosition :=
  match x with
  | none => dflt
  | some (r, p) => if r.op = OpSet then some p else none

/-- Main keydir correspondence: after applying a committed row sequence,
the position stored for k is that of the most recent row for k when that
row is a Set, absent when it is a Delete, and the pre-existing binding when
no row mentions k. -/
theorem logApply_get (rows : List Row) :
    ∀ (kd : Keydir) (w : Nat) (k : List Byte), KdWF kd →
    (∀ r ∈ rows, r.op = OpSet ∨ r.op = OpDelete) →
    (logApply kd w rows).get k =
      posFromLast (lastRowFor k (annotateRows w rows)) (kd.get k) := by
  induction rows with
  | nil =>
    intro kd w k hwf hop
    simp [logApply, annotateRows, lastRowFor, posFromLast]
  | cons r rest ih =>
    intro kd w k hwf hop
    rw [logApply, annotateRows, lastRowFor]
    rw [ih (updateKd kd r w (encLen r)) (w + encLen r) k
      (kdWF_updateKd kd r w (encLen r) hwf) (fun x hx => hop x (by simp [hx]))]
    rcases hlast : lastRowFor k (annotateRows (w + encLen r) rest) with _ | y
    · show (updateKd kd r w (encLen r)).get k = _
      rw [get_updateKd kd r w (encLen r) k hwf (hop r (by simp))]
      by_cases hk : r.key = k
      · simp [posFromLast, hk]
      · simp [posFromLast, hk]
    · rcases y with ⟨r2, p2⟩
      rfl

theorem lastRowFor_key (l : List (Row × RowPosition)) (k : List Byte)
    (rp : Row × RowPosition) (h : lastRowFor k l = some rp) : rp.1.key = k := by
  induction l with
  | nil => simp [lastRowFor] at h
  | cons x rest ih =>
    rw [lastRowFor] at h
    split at h
    · rename_i y heq
      cases h
      exact ih heq
    · split at h
      · rename_i hx
        cases h
        exact hx
      · cases h

theorem lastRowFor_mem (l : List (Row × RowPosition)) (k : List Byte)
    (rp : Row × RowPosition) (h : lastRowFor k l = some rp) : rp ∈ l := by
  induction l with
  | nil => simp [lastRowFor] at h
  | cons x rest ih =>
    rw [lastRowFor] at h
    split at h
    · rename_i y heq
      cases h
      exact List.mem_cons_of_mem _ (ih heq)
    · split at h
      · cases h
        exact List.mem_cons_self _ _
      · cases h

/-- Positions in the annotated row list locate the exact encoding of their
row inside the concatenated log. -/
theorem annotate_slice (rows : List Row) :
    ∀ (w : Nat) (rp : Row × RowPosition),
    (∀ r ∈ rows, validRow r) →
    rp ∈ annotateRows w rows →
    w ≤ rp.2.offset
      ∧ rp.2.offset - w + rp.2.size ≤ (encodeAll rows).length
      ∧ ((encodeAll rows).drop (rp.2.offset - w)).take rp.2.size = rp.1.encode.getD []
      ∧ rp.2.size = encLen rp.1 := by
  induction rows with
  | nil =>
    intro w rp hv hm
    simp [annotateRows] at hm
  | cons r rest ih =>
    intro w rp hv hm
    obtain ⟨hk, hvl⟩ := hv r (by simp)
    have henc := encode_eq_some r hk hvl
    have hlen := encode_length r _ henc
    rw [annotateRows] at hm
    rw [encodeAll]
    rcases List.mem_cons.mp hm with heq | hmem
    · subst heq
      refine ⟨le_refl _, ?_, ?_, rfl⟩
      · rw [henc, Option.getD_some, List.length_append, hlen]
        show w - w + encLen r ≤ encLen r + (encodeAll rest).length
        omega
      · show ((r.encode.getD [] ++ encodeAll rest).drop (w - w)).take (encLen r)
          = r.encode.getD []
        rw [henc, Option.getD_some, Nat.sub_self, List.drop_zero]
        rw [List.take_append_of_le_length (by omega)]
        rw [show encLen r = ([r.op, byteOf r.key.length] ++ u32be r.value.length
          ++ r.key ++ r.value).length from hlen.symm, List.take_length]
    · obtain ⟨h1, h2, h3, h4⟩ := ih (w + encLen r) rp
        (fun x hx => hv x (by simp [hx])) hmem
      have hle : w ≤ rp.2.offset := by omega
      refine ⟨hle, ?_, ?_, h4⟩
      · rw [henc, Option.getD_some, List.length_append, hlen]
        omega
      · have hidx : rp.2.offset - w =
            ([r.op, byteOf r.key.length] ++ u32be r.value.length
              ++ r.key ++ r.value).length + (rp.2.offset - (w + encLen r)) := by
          rw [hlen]
          omega
        rw [henc, Option.getD_some, hidx, List.drop_append]
        exact h3

def encLenAll : List Row → Nat
  | [] => 0
  | r :: rest => encLen r + encLenAll rest

theorem encodeAll_length (rows : List Row) (hv : ∀ r ∈ rows, validRow r) :
    (encodeAll rows).length = encLenAll rows := by
  induction rows with
  | nil => rfl
  | cons r rest ih =>
    obtain ⟨hk, hvl⟩ := hv r (by simp)
    have henc := encode_eq_some r hk hvl
    have hlen := encode_length r _ henc
    rw [encodeAll, encLenAll, List.length_append, henc, Option.getD_some, hlen,
      ih (fun x hx => hv x (by simp [hx]))]

theorem encodeAll_append (a b : List Row) :
    encodeAll (a ++ b) = encodeAll a ++ encodeAll b := by
  induction a with
  | nil => rfl
  | cons r rest ih =>
    rw [List.cons_append, encodeAll, encodeAll, ih, List.append_assoc]

theorem encLenAll_append (a b : List Row) :
    encLenAll (a ++ b) = encLenAll a + encLenAll b := by
  induction a with
  | nil => simp [encLenAll]
  | cons r rest ih =>
    rw [List.cons_append, encLenAll, encLenAll, ih]
    omega

theorem logApply_append (a b : List Row) :
    ∀ (kd : Keydir) (w : Nat),
    logApply kd w (a ++ b) = logApply (logApply kd w a) (w + encLenAll a) b := by
  induction a with
  | nil =>
    intro kd w
    rw [List.nil_append, logApply, encLenAll]
    rfl
  | cons r rest ih =>
    intro kd w
    rw [List.cons_append, logApply, logApply, ih, encLenAll]
    rw [Nat.add_assoc]

theorem validRow_rowOf (op : WOp) (h : validWOp op) : validRow (rowOf op) := by
  cases op with
  | set k v => exact h
  | del k => exact ⟨h, Nat.zero_le _⟩

theorem rowsOf_valid (ops : List WOp) (h : ∀ op ∈ ops, validWOp op) :
    ∀ r ∈ rowsOf ops, validRow r := by
  intro r hr
  rw [rowsOf, List.mem_map] at hr
  obtain ⟨op, hop, heq⟩ := hr
  subst heq
  exact validRow_rowOf op (h op hop)

theorem rowsOf_ops (ops : List WOp) :
    ∀ r ∈ rowsOf ops, r.op = OpSet ∨ r.op = OpDelete := by
  intro r hr
  rw [rowsOf, List.mem_map] at hr
  obtain ⟨op, hop, heq⟩ := hr
  subst heq
  cases op with
  | set k v => exact Or.inl rfl
  | del k => exact Or.inr rfl

/-- Running a sequence of valid write transactions from any state with
perfect I/O appends all row encodings and folds all keydir updates. -/
theorem runTxs_perfect (txs : List (List WOp)) :
    ∀ db : DBFile, (∀ tx ∈ txs, ∀ op ∈ tx, validWOp op) →
    runTxs db txs = .ok ⟨db.contents ++ encodeAll (rowsOf txs.flatten),
      db.woffset + encLenAll (rowsOf txs.flatten),
      logApply db.keydir db.woffset (rowsOf txs.flatten)⟩ := by
  induction txs with
  | nil =>
    intro db hv
    rw [runTxs]
    cases db
    simp [rowsOf, encodeAll, encLenAll, logApply]
  | cons tx rest ih =>
    intro db hv
    have hv1 : ∀ r ∈ rowsOf tx, validRow r :=
      rowsOf_valid tx (fun op hop => hv tx (by simp) op hop)
    rw [runTxs]
    rw [readWrite_perfect db tx hv1]
    show runTxs ⟨db.contents ++ encodeAll (rowsOf tx),
      db.woffset + (encodeAll (rowsOf tx)).length,
      logApply db.keydir db.woffset (rowsOf tx)⟩ rest = _
    rw [ih _ (fun t ht op hop => hv t (by simp [ht]) op hop)]
    have hflat : rowsOf ((tx :: rest).flatten) = rowsOf tx ++ rowsOf rest.flatten := by
      rw [List.flatten_cons]
      unfold rowsOf
      rw [List.map_append]
    have hlen1 : (encodeAll (rowsOf tx)).length = encLenAll (rowsOf tx) :=
      encodeAll_length (rowsOf tx) hv1
    simp only [Outcome.ok.injEq, DBFile.mk.injEq]
    refine ⟨?_, ?_, ?_⟩
    · rw [hflat, encodeAll_append, List.append_assoc]
    · rw [hflat, encLenAll_append, hlen1]
      omega
    · rw [hflat, logApply_append, hlen1]

/-- Replaying the concatenated encodings of a valid row list reproduces
exactly the keydir updates the committed transactions performed. -/
theorem replay_encodeAll (rows : List Row) :
    ∀ (kd : Keydir) (w : Nat),
    (∀ r ∈ rows, validRow r) →
    (∀ r ∈ rows, r.op = OpSet ∨ r.op = OpDelete) →
    replay kd w (encodeAll rows) = some (logApply kd w rows) := by
  induction rows with
  | nil =>
    intro kd w hv hop
    rw [encodeAll, replay]
    simp [logApply]
  | cons r rest ih =>
    intro kd w hv hop
    obtain ⟨hk, hvl⟩ := hv r (by simp)
    have henc := encode_eq_some r hk hvl
    have hlen := encode_length r _ henc
    set E := [r.op, byteOf r.key.length] ++ u32be r.value.length ++ r.key ++ r.value with hE
    rw [encodeAll, henc, Option.getD_some]
    have hne : E ++ encodeAll rest ≠ [] := by
      rw [hE]
      simp
    rw [replay]
    rw [dif_neg hne]
    rw [decode_encode_append r E (encodeAll rest) henc]
    have hdrop : (E ++ encodeAll rest).drop E.length = encodeAll rest := List.drop_left _ _
    show (if r.op = OpSet then
        replay (kd.set r.key ⟨w, E.length⟩) (w + E.length) ((E ++ encodeAll rest).drop E.length)
      else if r.op = OpDelete then
        replay (kd.delete r.key) (w + E.length) ((E ++ encodeAll rest).drop E.length)
      else none) = some (logApply kd w (r :: rest))
    rcases hop r (by simp) with hset | hdel
    · rw [if_pos hset, hdrop]
      rw [ih _ _ (fun x hx => hv x (by simp [hx])) (fun x hx => hop x (by simp [hx]))]
      rw [logApply]
      unfold updateKd
      rw [if_pos hset, hlen]
    · have hns : ¬ r.op = OpSet := by
        rw [hdel]
        decide
      rw [if_neg hns, if_pos hdel, hdrop]
      rw [ih _ _ (fun x hx => hv x (by simp [hx])) (fun x hx => hop x (by simp [hx]))]
      rw [logApply]
      unfold updateKd
      rw [if_neg hns, if_pos hdel, hlen]

theorem annotate_mem (rows : List Row) :
    ∀ (w : Nat) (rp : Row × RowPosition), rp ∈ annotateRows w rows → rp.1 ∈ rows := by
  induction rows with
  | nil =>
    intro w rp hm
    simp [annotateRows] at hm
  | cons r rest ih =>
    intro w rp hm
    rw [annotateRows] at hm
    rcases List.mem_cons.mp hm with heq | hmem
    · subst heq
      exact List.mem_cons_self _ _
    · exact List.mem_cons_of_mem _ (ih _ rp hmem)

theorem rowOf_key (op : WOp) : (rowOf op).key = wopKey op := by
  cases op <;> rfl

/-- The most recent log row for k corresponds exactly to the most recent
user operation for k. -/
theorem lastRowFor_rowsOf (ops : List WOp) : ∀ (w : Nat) (k : List Byte),
    (lastRowFor k (annotateRows w (rowsOf ops))).map Prod.fst
      = (lastWOpFor k ops).map rowOf := by
  induction ops with
  | nil =>
    intro w k
    rfl
  | cons op rest ih =>
    intro w k
    rw [show rowsOf (op :: rest) = rowOf op :: rowsOf rest from rfl,
      annotateRows, lastRowFor, lastWOpFor]
    have ihh := ih (w + encLen (rowOf op)) k
    rcases h1 : lastRowFor k (annotateRows (w + encLen (rowOf op)) (rowsOf rest)) with _ | rp <;>
      rcases h2 : lastWOpFor k rest with _ | o <;> rw [h1, h2] at ihh
    · by_cases hk : wopKey op = k
      · simp [rowOf_key, hk]
      · simp [rowOf_key, hk]
    · simp at ihh
    · simp at ihh
    · simpa using ihh

/-- The canonical database state after committing a flat operation list
from the empty database with perfect I/O. -/
def dbOf (ops : List WOp) : DBFile :=
  ⟨encodeAll (rowsOf ops), encLenAll (rowsOf ops), logApply emptyKeydir 0 (rowsOf ops)⟩

theorem readerGet_dbOf (ops : List WOp) (k : List Byte)
    (hvo : ∀ op ∈ ops, validWOp op) :
    readerGet (dbOf ops) k = some (lastWriteValue ops k)
      ∧ readerHas (dbOf ops) k = (lastWriteValue ops k).isSome := by
  have hor := rowsOf_ops ops
  have hvr := rowsOf_valid ops hvo
  have hget : (logApply emptyKeydir 0 (rowsOf ops)).get k =
      posFromLast (lastRowFor k (annotateRows 0 (rowsOf ops))) none := by
    rw [logApply_get _ emptyKeydir 0 k kdWF_empty hor, get_empty]
  have hcorr := lastRowFor_rowsOf ops 0 k
  rcases hlast : lastRowFor k (annotateRows 0 (rowsOf ops)) with _ | rp
  · rw [hlast] at hget hcorr
    have hnone : lastWOpFor k ops = none := by
      rcases hw : lastWOpFor k ops with _ | o
      · rfl
      · rw [hw] at hcorr
        simp at hcorr
    have hlwv : lastWriteValue ops k = none := by
      rw [lastWriteValue, hnone]
    have hgetn : (dbOf ops).keydir.get k = none := hget
    constructor
    · unfold readerGet
      rw [hgetn, hlwv]
    · unfold readerHas
      rw [hgetn, hlwv]
      rfl
  · rw [hlast] at hget hcorr
    obtain ⟨o, ho, hro⟩ : ∃ o, lastWOpFor k ops = some o ∧ rp.1 = rowOf o := by
      rcases hw : lastWOpFor k ops with _ | o
      · rw [hw] at hcorr
        simp at hcorr
      · rw [hw] at hcorr
        simp at hcorr
        exact ⟨o, rfl, hcorr⟩
    obtain ⟨hb1, hb2, hb3, hb4⟩ :=
      annotate_slice (rowsOf ops) 0 rp hvr (lastRowFor_mem _ k rp hlast)
    have hmem1 : rp.1 ∈ rowsOf ops :=
      annotate_mem (rowsOf ops) 0 rp (lastRowFor_mem _ k rp hlast)
    obtain ⟨hk1, hv1⟩ := hvr rp.1 hmem1
    have henc1 := encode_eq_some rp.1 hk1 hv1
    have hlen1 := encode_length rp.1 _ henc1
    have hslice : (((dbOf ops).contents.drop rp.2.offset).take rp.2.size)
        = rp.1.encode.getD [] := by
      have h3 := hb3
      rw [Nat.sub_zero] at h3
      exact h3
    have hdec1 : Row.decodeFrom (((dbOf ops).contents.drop rp.2.offset).take rp.2.size)
        = some (rp.1, rp.2.size) := by
      rw [hslice, henc1, Option.getD_some]
      rw [decode_encode rp.1 _ henc1]
      rw [hlen1, hb4]
    have hreadAt : readAt (dbOf ops).contents rp.2
        = some (((dbOf ops).contents.drop rp.2.offset).take rp.2.size) := by
      unfold readAt
      rw [if_pos ?_]
      show rp.2.offset + rp.2.size ≤ (encodeAll (rowsOf ops)).length
      omega
    cases o with
    | set k2 v =>
      have hop1 : rp.1.op = OpSet := by
        rw [hro]
        rfl
      have hval : rp.1.value = v := by
        rw [hro]
        rfl
      have hgets : (dbOf ops).keydir.get k = some rp.2 := by
        show (logApply emptyKeydir 0 (rowsOf ops)).get k = some rp.2
        rw [hget]
        show (if rp.1.op = OpSet then some rp.2 else none) = some rp.2
        rw [if_pos hop1]
      have hlwv : lastWriteValue ops k = some v := by
        rw [lastWriteValue, ho]
      constructor
      · unfold readerGet
        rw [hgets]
        show (match readAt (dbOf ops).contents rp.2 with
          | none => none
          | some bytes =>
            match Row.decodeFrom bytes with
            | none => none
            | some (row, _) => some (some row.value)) = some (lastWriteValue ops k)
        rw [hreadAt]
        show (match Row.decodeFrom (((dbOf ops).contents.drop rp.2.offset).take rp.2.size) with
          | none => none
          | some (row, _) => some (some row.value)) = some (lastWriteValue ops k)
        rw [hdec1, hlwv]
        show some (some rp.1.value) = some (some v)
        rw [hval]
      · unfold readerHas
        rw [hgets, hlwv]
        rfl
    | del k2 =>
      have hop1 : ¬ rp.1.op = OpSet := by
        rw [hro]
        show ¬ OpDelete = OpSet
        decide
      have hgetn : (dbOf ops).keydir.get k = none := by
        show (logApply emptyKeydir 0 (rowsOf ops)).get k = none
        rw [hget]
        show (if rp.1.op = OpSet then some rp.2 else none) = none
        rw [if_neg hop1]
      have hlwv : lastWriteValue ops k = none := by
        rw [lastWriteValue, ho]
      constructor
      · unfold readerGet
        rw [hgetn, hlwv]
      · unfold readerHas
        rw [hgetn, hlwv]
        rfl

/-- C1: for every finite sequence of valid write transactions committed
through readWrite from the empty database with fault-free I/O, every
transaction commits, and a subsequent Reader.Get k returns (without error)
the value of the last Set(k, v) among all committed operations unless a
later Delete(k) appears; otherwise an absent value, with Reader.Has k
false exactly then. -/
theorem c1_last_write_wins (txs : List (List WOp)) (k : List Byte)
    (hv : ∀ tx ∈ txs, ∀ op ∈ tx, validWOp op) :
    ∃ db : DBFile, runTxs emptyDB txs = Outcome.ok db
      ∧ readerGet db k = some (lastWriteValue txs.flatten k)
      ∧ readerHas db k = (lastWriteValue txs.flatten k).isSome := by
  have hvo : ∀ op ∈ txs.flatten, validWOp op := by
    intro op hop
    obtain ⟨tx, htx, hop2⟩ := List.mem_flatten.mp hop
    exact hv tx htx op hop2
  have hrun := runTxs_perfect txs emptyDB hv
  have hdb : (⟨emptyDB.contents ++ encodeAll (rowsOf txs.flatten),
      emptyDB.woffset + encLenAll (rowsOf txs.flatten),
      logApply emptyDB.keydir emptyDB.woffset (rowsOf txs.flatten)⟩ : DBFile)
      = dbOf txs.flatten := by
    simp [dbOf, emptyDB]
  rw [hdb] at hrun
  obtain ⟨hg, hh⟩ := readerGet_dbOf txs.flatten k hvo
  exact ⟨dbOf txs.flatten, hrun, hg, hh⟩

theorem c1_last_write_wins_witness :
    (∀ tx ∈ [[WOp.set [⟨97, by decide⟩] [⟨1, by decide⟩]],
        [WOp.set [⟨97, by decide⟩] [⟨2, by decide⟩], WOp.del [⟨98, by decide⟩]]],
      ∀ op ∈ tx, validWOp op)
    ∧ ∃ db : DBFile,
      runTxs emptyDB [[WOp.set [⟨97, by decide⟩] [⟨1, by decide⟩]],
        [WOp.set [⟨97, by decide⟩] [⟨2, by decide⟩], WOp.del [⟨98, by decide⟩]]] = Outcome.ok db
      ∧ readerGet db [⟨97, by decide⟩]
          = some (lastWriteValue ([[WOp.set [⟨97, by decide⟩] [⟨1, by decide⟩]],
              [WOp.set [⟨97, by decide⟩] [⟨2, by decide⟩], WOp.del [⟨98, by decide⟩]]]).flatten
            [⟨97, by decide⟩])
      ∧ readerHas db [⟨97, by decide⟩]
          = (lastWriteValue ([[WOp.set [⟨97, by decide⟩] [⟨1, by decide⟩]],
              [WOp.set [⟨97, by decide⟩] [⟨2, by decide⟩], WOp.del [⟨98, by decide⟩]]]).flatten
            [⟨97, by decide⟩]).isSome :=
  ⟨by decide, c1_last_write_wins _ _ (by decide)⟩

/-- C7: after any sequence of valid write transactions committed from the
empty database, replaying the resulting log from scratch (as Open does)
reconstructs exactly the keydir held at close, and that keydir maps each
key to the position of the most recent Set row for it in the log (absent
when the most recent row is a Delete or no row exists). -/
theorem c7_replay_idempotence (txs : List (List WOp))
    (hv : ∀ tx ∈ txs, ∀ op ∈ tx, validWOp op) :
    ∃ db : DBFile, runTxs emptyDB txs = Outcome.ok db
      ∧ replay emptyKeydir 0 db.contents = some db.keydir
      ∧ ∀ k : List Byte, db.keydir.get k
          = posFromLast (lastRowFor k (annotateRows 0 (rowsOf txs.flatten))) none := by
  have hvo : ∀ op ∈ txs.flatten, validWOp op := by
    intro op hop
    obtain ⟨tx, htx, hop2⟩ := List.mem_flatten.mp hop
    exact hv tx htx op hop2
  have hor := rowsOf_ops txs.flatten
  have hvr := rowsOf_valid txs.flatten hvo
  have hrun := runTxs_perfect txs emptyDB hv
  have hdb : (⟨emptyDB.contents ++ encodeAll (rowsOf txs.flatten),
      emptyDB.woffset + encLenAll (rowsOf txs.flatten),
      logApply emptyDB.keydir emptyDB.woffset (rowsOf txs.flatten)⟩ : DBFile)
      = dbOf txs.flatten := by
    simp [dbOf, emptyDB]
  rw [hdb] at hrun
  refine ⟨dbOf txs.flatten, hrun, ?_, ?_⟩
  · exact replay_encodeAll (rowsOf txs.flatten) emptyKeydir 0 hvr hor
  · intro k
    have h := logApply_get (rowsOf txs.flatten) emptyKeydir 0 k kdWF_empty hor
    rw [get_empty] at h
    exact h

theorem c7_replay_idempotence_witness :
    (∀ tx ∈ [[WOp.set [⟨97, by decide⟩] [⟨1, by decide⟩], WOp.del [⟨97, by decide⟩]]],
      ∀ op ∈ tx, validWOp op)
    ∧ ∃ db : DBFile,
      runTxs emptyDB [[WOp.set [⟨97, by decide⟩] [⟨1, by decide⟩],
        WOp.del [⟨97, by decide⟩]]] = Outcome.ok db
      ∧ replay emptyKeydir 0 db.contents = some db.keydir
      ∧ ∀ k : List Byte, db.keydir.get k
          = posFromLast (lastRowFor k (annotateRows 0
              (rowsOf ([[WOp.set [⟨97, by decide⟩] [⟨1, by decide⟩],
                WOp.del [⟨97, by decide⟩]]]).flatten))) none :=
  ⟨by decide, c7_replay_idempotence _ (by decide)⟩

/-- C10: the empty key is fully supported: after a committed Set of the
empty key to v, Reader.Has reports it, Reader.Get returns v, the count
includes it, its position lives at the trie root (get of the empty key
reads root.position), a forward no-prefix walk visits it, and deleting it
removes it and restores the count; moreover, in ANY keydir whose root
holds a position, the forward no-prefix walk emits the empty key first,
before every other key. -/
theorem c10_empty_key (v : List Byte) (hvl : v.length ≤ MaxValueLength) :
    (∃ db : DBFile, runTxs emptyDB [[WOp.set [] v]] = Outcome.ok db
      ∧ readerHas db [] = true
      ∧ readerGet db [] = some (some v)
      ∧ readerCount db = 1
      ∧ db.keydir.get [] = db.keydir.root.position
      ∧ db.keydir.root.position = some ⟨0, 6 + v.length⟩
      ∧ readerWalkKeys db none = [[]]
      ∧ (db.keydir.delete []).get [] = none
      ∧ (db.keydir.delete []).count = 0)
    ∧ (∀ (kd : Keydir) (p : RowPosition), kd.root.position = some p →
        (kd.walk none).head? = some ([], p)) := by
  constructor
  · have hv : ∀ tx ∈ [[WOp.set [] v]], ∀ op ∈ tx, validWOp op := by
      intro tx htx op hop
      simp at htx
      subst htx
      simp at hop
      subst hop
      exact ⟨by decide, hvl⟩
    have hvo : ∀ op ∈ ([[WOp.set [] v]]).flatten, validWOp op := by
      intro op hop
      obtain ⟨tx, htx, hop2⟩ := List.mem_flatten.mp hop
      exact hv tx htx op hop2
    have hrun := runTxs_perfect [[WOp.set [] v]] emptyDB hv
    have hdb : (⟨emptyDB.contents ++ encodeAll (rowsOf ([[WOp.set [] v]]).flatten),
        emptyDB.woffset + encLenAll (rowsOf ([[WOp.set [] v]]).flatten),
        logApply emptyDB.keydir emptyDB.woffset (rowsOf ([[WOp.set [] v]]).flatten)⟩ : DBFile)
        = dbOf ([[WOp.set [] v]]).flatten := by
      simp [dbOf, emptyDB]
    rw [hdb] at hrun
    obtain ⟨hg, hh⟩ := readerGet_dbOf ([[WOp.set [] v]]).flatten [] hvo
    have hkd : (dbOf ([[WOp.set [] v]]).flatten).keydir
        = ⟨1, .mk (List.replicate 256 none) (some ⟨0, 6 + v.length⟩)⟩ := rfl
    have hwalk : (dbOf ([[WOp.set [] v]]).flatten).keydir.walk none
        = [([], ⟨0, 6 + v.length⟩)] := by
      rw [kd_walk_none, hkd]
      show (KeydirNode.mk (List.replicate 256 none)
        (some ⟨0, 6 + v.length⟩)).walkNode false [] = [([], ⟨0, 6 + v.length⟩)]
      rw [walkNode_leaf]
    refine ⟨dbOf ([[WOp.set [] v]]).flatten, hrun, ?_, ?_, ?_, ?_, ?_, ?_, ?_, ?_⟩
    · rw [hh]
      rfl
    · rw [hg]
      rfl
    · rw [readerCount, hkd]
    · rfl
    · rw [hkd]
      rfl
    · rw [readerWalkKeys, hwalk]
      rfl
    · rw [hkd]
      rfl
    · rw [hkd]
      rfl
  · intro kd p hp
    rcases hroot : kd.root with ⟨children, position⟩
    rw [hroot] at hp
    have hpos : position = some p := hp
    subst hpos
    rw [kd_walk_none, hroot, walkNode_mk]
    rfl

theorem c10_empty_key_witness :
    ([⟨5, by decide⟩] : List Byte).length ≤ MaxValueLength
    ∧ ((∃ db : DBFile,
        runTxs emptyDB [[WOp.set [] [⟨5, by decide⟩]]] = Outcome.ok db
        ∧ readerHas db [] = true
        ∧ readerGet db [] = some (some [⟨5, by decide⟩])
        ∧ readerCount db = 1
        ∧ db.keydir.get [] = db.keydir.root.position
        ∧ db.keydir.root.position = some ⟨0, 6 + ([⟨5, by decide⟩] : List Byte).length⟩
        ∧ readerWalkKeys db none = [[]]
        ∧ (db.keydir.delete []).get [] = none
        ∧ (db.keydir.delete []).count = 0)
      ∧ (∀ (kd : Keydir) (p : RowPosition), kd.root.position = some p →
          (kd.walk none).head? = some ([], p))) :=
  ⟨by decide, c10_empty_key [⟨5, by decide⟩] (by decide)⟩

/-- The database state reached by committing one Set of the key [0xFF]. -/
def dbFF : DBFile := dbOf [WOp.set keyFF [byteA]]

def nodeFF8 : KeydirNode := .mk (List.replicate 256 none) (some ⟨0, 8⟩)

theorem dbFF_root : dbFF.keydir.root
    = KeydirNode.mk ((List.replicate 256 none).set 255 (some nodeFF8)) none := rfl

theorem dbFF_walk : dbFF.keydir.walk none = [] := by
  rw [kd_walk_none, dbFF_root,
    walkNode_single_skipped 255 _ _ _ _ (by decide : (255 : Nat) ∉ keydirLoopIdxs false)]

theorem compact_dbFF : compact dbFF = ⟨[], 0, emptyKeydir⟩ := by
  rw [compact, dbFF_walk]
  rfl

/-- C4: refuted on the code. Compaction copies exactly the rows the keydir
walk visits, but the walk's loop skips child index 255, so a live key whose
first byte is 0xFF is dropped: before compact the key reads back and is
counted; after compact the file is empty, get returns absent, has is false
and the count is 0 — contradicting "get(K) returns the same bytes before
and after compact" and "count() is unchanged". -/
theorem c4_compact_code_bug :
    runTxs emptyDB [[WOp.set keyFF [byteA]]] = Outcome.ok dbFF
    ∧ readerGet dbFF keyFF = some (some [byteA])
    ∧ readerHas dbFF keyFF = true
    ∧ readerCount dbFF = 1
    ∧ compact dbFF = ⟨[], 0, emptyKeydir⟩
    ∧ readerGet (compact dbFF) keyFF = some none
    ∧ readerHas (compact dbFF) keyFF = false
    ∧ readerCount (compact dbFF) = 0
    ∧ (compact dbFF).contents.length ≤ dbFF.contents.length := by
  refine ⟨?_, by decide, by decide, by decide, compact_dbFF, ?_, ?_, ?_, ?_⟩
  · have hv : ∀ tx ∈ [[WOp.set keyFF [byteA]]], ∀ op ∈ tx, validWOp op := by
      decide
    have hrun := runTxs_perfect [[WOp.set keyFF [byteA]]] emptyDB hv
    have hdb : (⟨emptyDB.contents ++ encodeAll (rowsOf ([[WOp.set keyFF [byteA]]]).flatten),
        emptyDB.woffset + encLenAll (rowsOf ([[WOp.set keyFF [byteA]]]).flatten),
        logApply emptyDB.keydir emptyDB.woffset
          (rowsOf ([[WOp.set keyFF [byteA]]]).flatten)⟩ : DBFile)
        = dbFF := by
      rw [dbFF]
      simp [dbOf, emptyDB]
    rw [hdb] at hrun
    exact hrun
  · rw [compact_dbFF]
    decide
  · rw [compact_dbFF]
    decide
  · rw [compact_dbFF]
    decide
  · rw [compact_dbFF]
    decide

/-!
## The keymap variant (rw.go engine): per-key history lists
-/

/-- keymapNode (rw.go engine): 256 child pointers and a history of row
positions; a nil history (modelled as []) means the key is not live. -/
inductive KeymapNode where
  | mk (children : List (Option KeymapNode)) (history : List RowPosition)

def KeymapNode.children : KeymapNode → List (Option KeymapNode)
  | .mk c _ => c

def KeymapNode.history : KeymapNode → List RowPosition
  | .mk _ h => h

def emptyKmNode : KeymapNode := .mk (List.replicate 256 none) []

structure Keymap where
  root : KeymapNode

def emptyKeymap : Keymap := ⟨emptyKmNode⟩

/-- keymap.set: descend the key materialising missing children, then append
the position to the terminal node's history. -/
def KeymapNode.kmSet : KeymapNode → List Byte → RowPosition → KeymapNode
  | .mk children history, [], pos => .mk children (history ++ [pos])
  | .mk children history, c :: rest, pos =>
    let child := (children.getD c.val none).getD emptyKmNode
    .mk (children.set c.val (some (child.kmSet rest pos))) history

def Keymap.set (km : Keymap) (key : List Byte) (pos : RowPosition) : Keymap :=
  ⟨km.root.kmSet key pos⟩

/-- keymap.get: descend the key; nil (here []) when a child is missing. -/
def KeymapNode.kmGet : KeymapNode → List Byte → List RowPosition
  | n, [] => n.history
  | .mk children _, c :: rest =>
    match children.getD c.val none with
    | none => []
    | some child => child.kmGet rest

def Keymap.get (km : Keymap) (key : List Byte) : List RowPosition :=
  km.root.kmGet key

/-- The child indices visited by keymapNode.walk: unlike the keydir trie
variant, the loop covers the full 0..255 range in both directions. -/
def kmLoopIdxs (reverse : Bool) : List Nat :=
  if reverse then (List.range 256).reverse else List.range 256

mutual

/-- keymapNode.walk: visit this node's history first when it is non-nil,
then the children over the full index range. -/
def KeymapNode.kmWalkNode (n : KeymapNode) (reverse : Bool) (pfx : List Byte) :
    List (List Byte × List RowPosition) :=
  match n with
  | .mk children history =>
    (if history = [] then [] else [(pfx, history)]) ++
    kmWalkChildren children (kmLoopIdxs reverse) reverse pfx
termination_by (sizeOf n, 0)

def kmWalkChildren (children : List (Option KeymapNode)) (idxs : List Nat)
    (reverse : Bool) (pfx : List Byte) : List (List Byte × List RowPosition) :=
  match idxs with
  | [] => []
  | c :: rest =>
    (match h : children.getD c none with
     | none => []
     | some child => child.kmWalkNode reverse (pfx ++ [byteOf c])) ++
    kmWalkChildren children rest reverse pfx
termination_by (sizeOf children, idxs.length)
decreasing_by
  · simp only [Prod.lex_def]
    left
    have hm : some child ∈ children := by
      have : children.getD c none = (children.get? c).getD none := by
        rw [List.getD_eq_getElem?_getD, List.get?_eq_getElem?]
      rw [this] at h
      rcases hg : children.get? c with _ | x
      · rw [hg] at this h; simp at h
      · rw [hg] at h
        simp at h
        subst h
        exact List.get?_mem hg
    have h1 := List.sizeOf_lt_of_mem hm
    have h2 : sizeOf child < sizeOf (some child) := by
      simp
    omega
  · simp [Prod.lex_def]

end

def KeymapNode.kmDescend : KeymapNode → List Byte → Option KeymapNode
  | n, [] => some n
  | .mk children _, c :: rest =>
    match children.getD c.val none with
    | none => none
    | some child => child.kmDescend rest

/-- keymap.walk: default options, descend to the prefix node (no visits when
the prefix path is missing), then walk that subtree. -/
def Keymap.walk (km : Keymap) (opts : Option WalkOptions) :
    List (List Byte × List RowPosition) :=
  let o := opts.getD ⟨[], false⟩
  match km.root.kmDescend o.pfx with
  | none => []
  | some n => n.kmWalkNode o.reverse o.pfx

/-- rw.go Reader.Count: takes a prefix argument but walks the keymap with
nil options, counting every live key in the database. -/
def rwCount (km : Keymap) (pfx : List Byte) : Nat :=
  (km.walk none).length

/-! ### Keymap walk characterization -/

def kmWalkStep (children : List (Option KeymapNode)) (reverse : Bool) (pfx : List Byte)
    (c : Nat) : List (List Byte × List RowPosition) :=
  match children.getD c none with
  | none => []
  | some child => child.kmWalkNode reverse (pfx ++ [byteOf c])

theorem kmWalkChildren_eq_flatMap (children : List (Option KeymapNode)) (idxs : List Nat)
    (reverse : Bool) (pfx : List Byte) :
    kmWalkChildren children idxs reverse pfx = idxs.flatMap (kmWalkStep children reverse pfx) := by
  induction idxs with
  | nil => simp [kmWalkChildren]
  | cons c rest ih =>
    rw [List.flatMap_cons, ← ih]
    rw [kmWalkChildren]
    congr 1
    split
    · rename_i hx
      unfold kmWalkStep
      rw [hx]
    · rename_i child hx
      unfold kmWalkStep
      rw [hx]

theorem kmWalkNode_mk (children : List (Option KeymapNode)) (history : List RowPosition)
    (reverse : Bool) (pfx : List Byte) :
    (KeymapNode.mk children history).kmWalkNode reverse pfx =
      (if history = [] then [] else [(pfx, history)]) ++
      (kmLoopIdxs reverse).flatMap (kmWalkStep children reverse pfx) := by
  rw [KeymapNode.kmWalkNode.eq_def]
  simp only [kmWalkChildren_eq_flatMap]

/-- Walk of a keymap leaf node: no children. -/
theorem kmWalkNode_leaf (history : List RowPosition) (reverse : Bool) (pfx : List Byte) :
    (KeymapNode.mk (List.replicate 256 none) history).kmWalkNode reverse pfx =
      (if history = [] then [] else [(pfx, history)]) := by
  rw [kmWalkNode_mk]
  rw [flatMap_nil_of]
  · simp
  · intro c _
    unfold kmWalkStep
    rw [getD_replicate]

theorem range256_decomp :
    List.range 256 = List.range 97 ++ 97 :: 98 :: List.range' 99 157 := by decide

/-- Flattened walk over children that are empty apart from indices 97, 98. -/
theorem flatMap_97_98 {α : Type} (f : Nat → List α)
    (h : ∀ c : Nat, c ∈ List.range 97 ∨ c ∈ List.range' 99 157 → f c = []) :
    (List.range 256).flatMap f = f 97 ++ f 98 := by
  rw [range256_decomp, List.flatMap_append,
    flatMap_nil_of _ _ (fun c hc => h c (Or.inl hc)),
    List.flatMap_cons, List.flatMap_cons,
    flatMap_nil_of _ _ (fun c hc => h c (Or.inr hc))]
  simp

/-- Walk of a keymap node whose children are empty apart from indices 97
and 98, in forward order. -/
theorem kmWalkNode_9798 (a b : KeymapNode) (history : List RowPosition) (pfx : List Byte) :
    (KeymapNode.mk (((List.replicate 256 none).set 97 (some a)).set 98 (some b))
        history).kmWalkNode false pfx =
      (if history = [] then [] else [(pfx, history)]) ++
      (a.kmWalkNode false (pfx ++ [byteOf 97]) ++ b.kmWalkNode false (pfx ++ [byteOf 98])) := by
  rw [kmWalkNode_mk]
  have hidx : kmLoopIdxs false = List.range 256 := rfl
  have hstep97 : kmWalkStep (((List.replicate 256 none).set 97 (some a)).set 98 (some b))
      false pfx 97 = a.kmWalkNode false (pfx ++ [byteOf 97]) := by
    unfold kmWalkStep
    rw [getD_set_ne _ _ _ _ _ (by omega),
      getD_set_self _ _ _ _ (by rw [List.length_replicate]; omega)]
  have hstep98 : kmWalkStep (((List.replicate 256 none).set 97 (some a)).set 98 (some b))
      false pfx 98 = b.kmWalkNode false (pfx ++ [byteOf 98]) := by
    unfold kmWalkStep
    rw [getD_set_self _ _ _ _ (by rw [List.length_set, List.length_replicate]; omega)]
  rw [hidx, flatMap_97_98]
  · rw [hstep97, hstep98]
  · intro c hc
    have hc1 : c ≠ 97 ∧ c ≠ 98 := by
      rcases hc with hlt | hge
      · rw [List.mem_range] at hlt
        omega
      · have := List.mem_range'_1.mp hge
        omega
    unfold kmWalkStep
    rw [getD_set_ne _ _ _ _ _ (Ne.symm hc1.2), getD_set_ne _ _ _ _ _ (Ne.symm hc1.1),
      getD_replicate]

theorem kmDescend_nil (n : KeymapNode) : n.kmDescend [] = some n := by
  cases n
  rfl

theorem km_walk_none (km : Keymap) : km.walk none = km.root.kmWalkNode false [] := by
  show (match km.root.kmDescend [] with
    | none => []
    | some n => n.kmWalkNode false []) = km.root.kmWalkNode false []
  rw [kmDescend_nil]

theorem km_walk_opts (km : Keymap) (pfx : List Byte) (rev : Bool) :
    km.walk (some ⟨pfx, rev⟩) =
      (match km.root.kmDescend pfx with
       | none => []
       | some n => n.kmWalkNode rev pfx) := rfl

/-- The keymap after committing Set("aa"), Set("ab"), Set("b"): two live
keys under the prefix "a" and one outside it. -/
def kmEx : Keymap :=
  ((emptyKeymap.set [byteA, byteA] ⟨0, 8⟩).set [byteA, byteB] ⟨8, 8⟩).set [byteB] ⟨16, 7⟩

theorem kmEx_root : kmEx.root
    = KeymapNode.mk (((List.replicate 256 none).set 97
        (some (KeymapNode.mk (((List.replicate 256 none).set 97
            (some (KeymapNode.mk (List.replicate 256 none) [⟨0, 8⟩]))).set 98
            (some (KeymapNode.mk (List.replicate 256 none) [⟨8, 8⟩]))) []))).set 98
        (some (KeymapNode.mk (List.replicate 256 none) [⟨16, 7⟩]))) [] := rfl

theorem kmEx_walk_full : kmEx.walk none =
    [([byteA, byteA], [⟨0, 8⟩]), ([byteA, byteB], [⟨8, 8⟩]), ([byteB], [⟨16, 7⟩])] := by
  rw [km_walk_none, kmEx_root, kmWalkNode_9798, kmWalkNode_9798,
    kmWalkNode_leaf, kmWalkNode_leaf, kmWalkNode_leaf]
  rfl

theorem kmEx_descendA : kmEx.root.kmDescend [byteA]
    = some (KeymapNode.mk (((List.replicate 256 none).set 97
        (some (KeymapNode.mk (List.replicate 256 none) [⟨0, 8⟩]))).set 98
        (some (KeymapNode.mk (List.replicate 256 none) [⟨8, 8⟩]))) []) := rfl

theorem kmEx_walk_prefixA : kmEx.walk (some ⟨[byteA], false⟩) =
    [([byteA, byteA], [⟨0, 8⟩]), ([byteA, byteB], [⟨8, 8⟩])] := by
  rw [km_walk_opts, kmEx_descendA]
  show (KeymapNode.mk (((List.replicate 256 none).set 97
      (some (KeymapNode.mk (List.replicate 256 none) [⟨0, 8⟩]))).set 98
      (some (KeymapNode.mk (List.replicate 256 none) [⟨8, 8⟩]))) []).kmWalkNode false [byteA]
    = [([byteA, byteA], [⟨0, 8⟩]), ([byteA, byteB], [⟨8, 8⟩])]
  rw [kmWalkNode_9798, kmWalkNode_leaf, kmWalkNode_leaf]
  rfl

/-- C9: refuted on the code. rw.go's Reader.Count takes a prefix argument
but walks the keymap with nil options: with live keys "aa", "ab", "b",
Count("a") returns 3, the total number of live keys, while exactly 2 live
keys start with "a" (as the prefix-restricted walk shows). -/
theorem c9_count_prefix_code_bug :
    rwCount kmEx [byteA] = 3
    ∧ (kmEx.walk (some ⟨[byteA], false⟩)).map Prod.fst = [[byteA, byteA], [byteA, byteB]]
    ∧ (kmEx.walk (some ⟨[byteA], false⟩)).length = 2
    ∧ rwCount kmEx [byteA] ≠ (kmEx.walk (some ⟨[byteA], false⟩)).length := by
  refine ⟨?_, ?_, ?_, ?_⟩
  · show (kmEx.walk none).length = 3
    rw [kmEx_walk_full]
    rfl
  · rw [kmEx_walk_prefixA]
    rfl
  · rw [kmEx_walk_prefixA]
    rfl
  · show (kmEx.walk none).length ≠ (kmEx.walk (some ⟨[byteA], false⟩)).length
    rw [kmEx_walk_full, kmEx_walk_prefixA]
    decide
